import Mathlib

/-!
# Verification of the Hindi Text → Video web app (`src/app.py`)

Shallow embedding of the single-module Flask application that converts
Hindi text into a subtitled MP4: speech synthesis (gTTS), subtitle
chunking and SRT serialisation, ffmpeg composition, and the
request-handler / deferred-cleanup lifecycle.

Pure computations (`hms_ms`, word splitting, chunking, SRT content,
`textwrap.fill`) are translated into executable Lean functions; the
effectful pipeline (`build_video`, the `index` handler, `delayed_cleanup`)
is modelled by explicit state passing over a file-system state and an
environment describing the outcomes of the two external processes
(speech service, encoder).  Python exceptions are modelled with `Except`.
-/

namespace HindiVideo

/-! ## Configuration constants (`src/app.py` lines 30–39) -/

def WORDS_PER_CHUNK : Nat := 8

def MAX_LINE_CHARS : Nat := 45

def CLEANUP_DELAY : Nat := 5

/-! ## Python string primitives

`str.split()` (no argument) splits on runs of whitespace and drops empty
pieces; `str.strip()` removes leading and trailing whitespace.  We model
the ASCII whitespace characters Python recognises (`" \t\n\r\x0b\x0c"`);
the app's behaviour on the exotic Unicode space code points is outside
the embedding's scope but identical in structure. -/

def pyIsSpace (c : Char) : Bool :=
  c = ' ' || c = '\t' || c = '\n' || c = '\r' || c = '\x0b' || c = '\x0c'

/-- Accumulating worker for `str.split()` on a character list: `acc` holds
the current (reversed) in-progress word. -/
def splitWsAux : List Char → List Char → List (List Char)
  | [], acc => if acc = [] then [] else [acc.reverse]
  | c :: cs, acc =>
    if pyIsSpace c then
      if acc = [] then splitWsAux cs []
      else acc.reverse :: splitWsAux cs []
    else splitWsAux cs (c :: acc)

/-- Python `text.split()` on a character list: maximal runs of
non-whitespace characters, empties dropped. -/
def pySplitL (cs : List Char) : List (List Char) :=
  splitWsAux cs []

/-- Python `text.split()` (`src/app.py` line 77). -/
def pySplit (s : String) : List String :=
  (pySplitL s.data).map String.mk

/-- Python `str.strip()` on a character list. -/
def pyStripL (cs : List Char) : List Char :=
  ((cs.dropWhile pyIsSpace).reverse.dropWhile pyIsSpace).reverse

/-- Python `str.strip()` (`src/app.py` line 106). -/
def pyStrip (s : String) : String :=
  String.mk (pyStripL s.data)

/-! ## Timestamp formatting: `hms_ms` (`src/app.py` lines 54–58) -/

/-- Python's `f"{n:0w}"`: decimal rendering left-padded with zeros to
width `w` (longer renderings are kept whole). -/
def padZero (w : Nat) (n : Nat) : String :=
  let s := toString n
  String.mk (List.replicate (w - s.length) '0') ++ s

/-- `hms_ms(ms)`: milliseconds → `"HH:MM:SS,mmm"`.
`h, rem = divmod(ms // 1000, 3600); m, s = divmod(rem, 60)`. -/
def hms_ms (ms : Nat) : String :=
  let h := ms / 1000 / 3600
  let rem := ms / 1000 % 3600
  let m := rem / 60
  let s := rem % 60
  padZero 2 h ++ ":" ++ padZero 2 m ++ ":" ++ padZero 2 s ++ "," ++ padZero 3 (ms % 1000)

/-! ## Word chunking (`src/app.py` line 78)

`chunks = [" ".join(words[i:i+WORDS_PER_CHUNK]) for i in range(0, len(words), WORDS_PER_CHUNK)]` -/

/-- Groups of at most `WORDS_PER_CHUNK` consecutive words
(`words[i:i+8]` for `i in range(0, len(words), 8)`). -/
def chunkList : List String → List (List String)
  | [] => []
  | w :: ws => (w :: ws.take (WORDS_PER_CHUNK - 1)) :: chunkList (ws.drop (WORDS_PER_CHUNK - 1))
termination_by ws => ws.length
decreasing_by simp [List.length_drop]; omega

/-- The chunk texts: each group of words joined with a single space. -/
def chunksOf (text : String) : List String :=
  (chunkList (pySplit text)).map (fun g => String.intercalate " " g)

/-! ## Proportional time slicing (`src/app.py` lines 79–84)

`slice_ms = total_ms // len(chunks)`; chunk `i` (1-based) spans
`[(i-1)*slice_ms, i*slice_ms)`, except the last chunk which ends at
`total_ms`. -/

/-- Start time of the 0-based chunk `i`. -/
def chunkStart (sliceMs : Nat) (i : Nat) : Nat :=
  i * sliceMs

/-- End time of the 0-based chunk `i` out of `n`. -/
def chunkEnd (total sliceMs n : Nat) (i : Nat) : Nat :=
  if i + 1 = n then total else (i + 1) * sliceMs

/-- The `(start, end)` windows of all subtitle chunks of `text` for a
measured audio duration of `total` milliseconds, exactly as computed in
the `for` loop of `build_video`. -/
def subtitleTimes (text : String) (total : Nat) : List (Nat × Nat) :=
  let n := (chunksOf text).length
  let sliceMs := total / n
  (List.range n).map (fun i => (chunkStart sliceMs i, chunkEnd total sliceMs n i))

/-! ## `textwrap.fill(chunk, MAX_LINE_CHARS)` (CPython stdlib, default options)

The app wraps each chunk with `textwrap.fill` and its defaults:
`expand_tabs=True`, `replace_whitespace=True`, `drop_whitespace=True`,
`break_long_words=True`, `break_on_hyphens=True`.

Scope of the embedding: it follows CPython's
`TextWrapper._munge_whitespace` / `_split` / `_wrap_chunks` exactly for
text containing **no hyphen character `'-'`**.  On hyphen-free text the
hyphen clauses of `wordsep_re` and the hyphen search of
`_handle_long_word` can never fire, so `_split` degenerates to maximal
runs of spaces and non-spaces, which is what `splitRuns` computes; every
theorem about `textwrap_wrap`/`textwrap_fill` below therefore carries a
hyphen-freeness hypothesis, and the C9 statement is scoped accordingly.
Text containing `'-'` is outside the model: there CPython additionally
treats a hyphen inside a word as a break point (it can split e.g.
`"ab-cdefg"` into the line fragments `"ab-"` and `"cdefg"` even though
the word is shorter than the width), and the functions below do not
reproduce that. -/

/-- Python `str.expandtabs(8)`: each tab becomes the number of spaces
reaching the next multiple-of-8 column; `\n` and `\r` reset the column. -/
def expandTabs : List Char → Nat → List Char
  | [], _ => []
  | c :: cs, col =>
    if c = '\t' then
      let pad := 8 - col % 8
      List.replicate pad ' ' ++ expandTabs cs (col + pad)
    else if c = '\n' || c = '\r' then c :: expandTabs cs 0
    else c :: expandTabs cs (col + 1)

/-- `_munge_whitespace`: `expand_tabs` then `replace_whitespace` — tabs
are expanded column-wise, then every whitespace character becomes a
space. -/
def munge (cs : List Char) : List Char :=
  (expandTabs cs 0).map (fun c => if pyIsSpace c then ' ' else c)

/-- A chunk is "blank" when `chunk.strip() == ''`. -/
def isBlank (l : List Char) : Bool :=
  l.all pyIsSpace

/-- Worker for `_split` on hyphen-free munged text: maximal runs of
spaces and of non-space characters, in order.  `acc` is the current run,
reversed. -/
def runsAux : List Char → List Char → List (List Char)
  | [], acc => if acc = [] then [] else [acc.reverse]
  | c :: cs, acc =>
    match acc with
    | [] => runsAux cs [c]
    | a :: _ =>
      if ((a = ' ') : Bool) = ((c = ' ') : Bool) then runsAux cs (c :: acc)
      else acc.reverse :: runsAux cs [c]

/-- `TextWrapper._split` for hyphen-free munged text: the chunk list
alternates runs of spaces and words. -/
def splitRuns (cs : List Char) : List (List Char) :=
  runsAux cs []

/-- The inner greedy loop of `_wrap_chunks`: move chunks onto the current
line while they fit.  Returns `(cur_line, cur_len, remaining chunks)`. -/
def takeFit (width : Nat) : List (List Char) → Nat → List (List Char) × Nat × List (List Char)
  | [], len => ([], len, [])
  | c :: cs, len =>
    if len + c.length ≤ width then
      let r := takeFit width cs (len + c.length)
      (c :: r.1, r.2.1, r.2.2)
    else ([], len, c :: cs)

/-- `drop_whitespace` at the head of a line: once lines exist, one
leading blank chunk is dropped. -/
def dropLeadBlank (haveLines : Bool) (chunks : List (List Char)) : List (List Char) :=
  match chunks with
  | c :: cs => if haveLines && isBlank c then cs else c :: cs
  | [] => []

/-- `_handle_long_word`: a chunk longer than the width is cut at the
space left on the current line. -/
def handleLong (width curLen : Nat) (cur rest : List (List Char)) :
    List (List Char) × List (List Char) :=
  match rest with
  | r :: rs =>
    if width < r.length then
      (cur ++ [r.take (width - curLen)], r.drop (width - curLen) :: rs)
    else (cur, r :: rs)
  | [] => (cur, [])

/-- `drop_whitespace` at the end of a line: one trailing blank chunk is
dropped. -/
def dropTrailBlank (cur : List (List Char)) : List (List Char) :=
  match cur.getLast? with
  | some l => if isBlank l then cur.dropLast else cur
  | none => cur

/-- One iteration of the `while chunks` loop of `_wrap_chunks`: build one
candidate line.  `haveLines` is `bool(lines)`; returns the line's chunk
list (empty = no line emitted) and the remaining chunks. -/
def oneLine (width : Nat) (chunks : List (List Char)) (haveLines : Bool) :
    List (List Char) × List (List Char) :=
  let chunks := dropLeadBlank haveLines chunks
  let t := takeFit width chunks 0
  let p := handleLong width t.2.1 t.1 t.2.2
  (dropTrailBlank p.1, p.2)

/-- Sum of the lengths of a chunk list (the length of the joined line). -/
def chunksLen (cs : List (List Char)) : Nat :=
  (cs.map List.length).sum

/-- Fuel-indexed outer loop of `_wrap_chunks`; with fuel at least
`chunksLen chunks + chunks.length + 1` the fuel never runs out. -/
def wrapLoop (width : Nat) : Nat → List (List Char) → Bool → List (List Char)
  | 0, _, _ => []
  | _ + 1, [], _ => []
  | fuel + 1, c :: cs, haveLines =>
    let p := oneLine width (c :: cs) haveLines
    match p.1 with
    | [] => wrapLoop width fuel p.2 haveLines
    | l => l.flatten :: wrapLoop width fuel p.2 true

/-- `textwrap.wrap(text, width)`, faithful to CPython for text that
contains no `'-'` (see the section comment above; the theorems below
assume hyphen-freeness wherever they speak about the program). -/
def textwrap_wrap (width : Nat) (s : String) : List String :=
  let chunks := splitRuns (munge s.data)
  (wrapLoop width (chunksLen chunks + chunks.length + 1) chunks false).map String.mk

/-- `"\n".join(lines)` on character lists. -/
def joinLines : List (List Char) → List Char
  | [] => []
  | [l] => l
  | l :: ls => l ++ '\n' :: joinLines ls

/-- `textwrap.fill(text, width)`, faithful to CPython for text that
contains no `'-'` (`src/app.py` line 85 uses `width = MAX_LINE_CHARS`). -/
def textwrap_fill (width : Nat) (s : String) : String :=
  let chunks := splitRuns (munge s.data)
  String.mk (joinLines (wrapLoop width (chunksLen chunks + chunks.length + 1) chunks false))

/-! ### Predicates for the wrap-loop proofs -/

/-- A chunk consisting solely of spaces (a whitespace run). -/
def SpaceChunk (c : List Char) : Prop :=
  ∀ a ∈ c, a = ' '

/-- A chunk containing no whitespace at all (a word run). -/
def WordChunk (c : List Char) : Prop :=
  ∀ a ∈ c, pyIsSpace a = false

/-- A well-formed chunk as produced by `splitRuns` on munged text:
non-empty and uniformly spaces or uniformly non-whitespace. -/
def GoodChunk (c : List Char) : Prop :=
  c ≠ [] ∧ (SpaceChunk c ∨ WordChunk c)

/-- Adjacent chunks are never both words (at least one is blank). -/
def blankRel (a b : List Char) : Prop :=
  isBlank a = true ∨ isBlank b = true

/-- Every word chunk fits on a line of the given width. -/
def WordsFit (width : Nat) (l : List (List Char)) : Prop :=
  ∀ c ∈ l, isBlank c = false → c.length ≤ width

/-- Keep the non-blank (word) chunks. -/
def notBlank (c : List Char) : Bool :=
  !(isBlank c)

/-- Termination measure of the wrap loop: total characters plus chunk
count. -/
def mWrap (l : List (List Char)) : Nat :=
  chunksLen l + l.length

/-! ## SRT serialisation (`src/app.py` lines 81–85)

```
for i, chunk in enumerate(chunks, 1):
    start = (i-1) * slice_ms
    end = total_ms if i == len(chunks) else i * slice_ms
    f.write(f"{i}\n{hms_ms(start)} --> {hms_ms(end)}\n{textwrap.fill(chunk, MAX_LINE_CHARS)}\n\n")
```
-/

/-- The block written for the 1-based chunk number `i`. -/
def srtBlock (total sliceMs n : Nat) (i : Nat) (chunk : String) : String :=
  toString i ++ "\n" ++ hms_ms ((i - 1) * sliceMs) ++ " --> " ++
    hms_ms (if i = n then total else i * sliceMs) ++ "\n" ++
    textwrap_fill MAX_LINE_CHARS chunk ++ "\n\n"

/-- The `for` loop, writing block after block: `i` is the 1-based number
of the first chunk of `rest`, `n` the total chunk count. -/
def srtLoop (total sliceMs n : Nat) : Nat → List String → String
  | _, [] => ""
  | i, chunk :: rest => srtBlock total sliceMs n i chunk ++ srtLoop total sliceMs n (i + 1) rest

/-- Full content of the `.srt` file written by `build_video` for a given
chunk list and measured duration. -/
def srtContent (chunks : List String) (total : Nat) : String :=
  srtLoop total (total / chunks.length) chunks.length 1 chunks

/-- Concatenation of a list of blocks. -/
def srtJoin : List String → String
  | [] => ""
  | b :: bs => b ++ srtJoin bs

/-! ## Effect model: files, stages, external outcomes

`build_video` creates `{uid}.mp3`, `{uid}.srt` and `{uid}.mp4` and removes
the first two on success.  File names are `uid` plus an extension, so we
model a path as that pair.  External effects (gTTS, ffmpeg) are described
by an environment: whether synthesis succeeds, the measured duration, and
whether the encoder exits successfully.  Python exceptions are `Except`
errors; the state records which files currently exist and which pipeline
stages have been invoked. -/

inductive Ext where
  | mp3 : Ext
  | srt : Ext
  | mp4 : Ext
deriving DecidableEq, Repr

/-- A generated file path `f"{uid}.{ext}"`. -/
structure FPath where
  uid : String
  ext : Ext
deriving DecidableEq, Repr

/-- The two external pipeline stages a request may invoke. -/
inductive Stage where
  | synthesis : Stage
  | encoding : Stage
deriving DecidableEq, Repr

/-- Outcomes of the external collaborators for one request. -/
structure Env where
  /-- does `gTTS(...).save(mp3)` succeed? -/
  synthOk : Bool
  /-- `len(AudioSegment.from_file(mp3))`: measured duration in ms -/
  durationMs : Nat
  /-- does the ffmpeg invocation exit with status 0? -/
  encodeOk : Bool
deriving Repr

/-- Python exceptions that can escape the pipeline. -/
inductive Err where
  /-- gTTS / network failure while synthesising speech -/
  | synthesisError : Err
  /-- `slice_ms = total_ms // len(chunks)` with zero chunks -/
  | zeroDivisionError : Err
  /-- `subprocess.run(..., check=True)` on encoder failure -/
  | calledProcessError : Err
deriving DecidableEq, Repr

/-- Request-visible state: the generated files currently on disk and the
pipeline stages invoked so far. -/
structure St where
  files : List FPath
  stages : List Stage
  /-- contents of subtitle files written so far, newest first -/
  srtWrites : List (FPath × String)
deriving DecidableEq, Repr

/-- `build_video(text)` (`src/app.py` lines 64–101): synthesise speech,
write the subtitle file, invoke the encoder, delete the intermediates on
success, and return the video path.  The `Except` value is the raised
exception, if any; the state records file creations/removals and stage
invocations in program order. -/
def build_video (env : Env) (uid : String) (text : String) (st : St) :
    Except Err FPath × St :=
  let mp3 : FPath := ⟨uid, Ext.mp3⟩
  let srt : FPath := ⟨uid, Ext.srt⟩
  let mp4 : FPath := ⟨uid, Ext.mp4⟩
  -- 1) gTTS(text=text, lang="hi").save(mp3)
  let st := { st with stages := st.stages ++ [Stage.synthesis] }
  if !env.synthOk then (Except.error Err.synthesisError, st)
  else
    let st := { st with files := mp3 :: st.files }
    let total := env.durationMs
    -- 2) words / chunks / slice_ms (ZeroDivisionError before the srt is written)
    let words := pySplit text
    let chunks := (chunkList words).map (fun g => String.intercalate " " g)
    if chunks.length = 0 then (Except.error Err.zeroDivisionError, st)
    else
      -- the srt file is created with content `srtContent chunks total`
      let st := { st with files := srt :: st.files,
                          srtWrites := (srt, srtContent chunks total) :: st.srtWrites }
      -- 3) run_ffmpeg(ffmpeg_cmd)
      let st := { st with stages := st.stages ++ [Stage.encoding] }
      if !env.encodeOk then (Except.error Err.calledProcessError, st)
      else
        let st := { st with files := mp4 :: st.files }
        -- 4) os.remove(mp3); os.remove(srt)
        let st := { st with files := (st.files.erase mp3).erase srt }
        (Except.ok mp4, st)

/-! ## Request handler (`src/app.py` lines 103–121) -/

/-- Response bodies the app can produce. -/
inductive Body where
  /-- `render_template_string(HTML_FORM, error=...)` -/
  | htmlForm (error : Option String) : Body
  /-- `send_file(path, as_attachment=True, download_name=...)` -/
  | fileAttachment (path : FPath) (downloadName : String) : Body
  /-- a framework-generated error page (404 / 405) -/
  | frameworkError : Body
deriving DecidableEq, Repr

/-- An HTTP response: status code and body. -/
structure HttpResponse where
  status : Nat
  body : Body
deriving DecidableEq, Repr

/-- The form's validation message (`src/app.py` line 108). -/
def validationMsg : String := "टेक्स्ट चाहिए!"

/-- The encoder-failure message (`src/app.py` line 113). -/
def ffmpegErrorMsg : String := "FFmpeg error – सुनिश्चित करें FFmpeg PATH में है"

/-- `index()` on a POST request (`src/app.py` lines 105–119).  Returns
the response together with the `request.video_path` attribute (set only
on the success path), or the uncaught exception.  Only
`subprocess.CalledProcessError` is caught. -/
def index_post (env : Env) (uid : String) (formText : Option String) (st : St) :
    Except Err (HttpResponse × Option FPath) × St :=
  let text := pyStrip (formText.getD "")
  if text = "" then
    (Except.ok (⟨200, Body.htmlForm (some validationMsg)⟩, none), st)
  else
    match build_video env uid text st with
    | (Except.ok mp4, st) =>
      (Except.ok (⟨200, Body.fileAttachment mp4 "hindi_video.mp4"⟩, some mp4), st)
    | (Except.error Err.calledProcessError, st) =>
      (Except.ok (⟨200, Body.htmlForm (some ffmpegErrorMsg)⟩, none), st)
    | (Except.error e, st) => (Except.error e, st)

/-- An incoming HTTP request, as far as routing and the handler see it. -/
structure HttpRequest where
  method : String
  path : String
  contentType : String
  /-- form field `text`, when present -/
  formText : Option String
deriving Repr

/-- The app's routing: the only registered route is
`@app.route("/", methods=["GET", "POST"])`; every other path gets the
framework's 404, a disallowed method on `/` gets 405. -/
def dispatch (env : Env) (uid : String) (req : HttpRequest) (st : St) :
    Except Err (HttpResponse × Option FPath) × St :=
  if req.path = "/" then
    if req.method = "POST" then index_post env uid req.formText st
    else if req.method = "GET" then
      (Except.ok (⟨200, Body.htmlForm none⟩, none), st)
    else (Except.ok (⟨405, Body.frameworkError⟩, none), st)
  else (Except.ok (⟨404, Body.frameworkError⟩, none), st)

/-! ## Deferred cleanup (`src/app.py` lines 123–140) -/

/-- Truthiness of `getattr(request, "video_path", None)`: `None` is
falsy; a produced path `f"{uid}.mp4"` is a non-empty string, hence
truthy. -/
def pyTruthy (videoPath : Option FPath) : Bool :=
  videoPath.isSome

/-- `delayed_cleanup`'s scheduling guard (`src/app.py` line 137):
a deletion thread is started iff
`response.status_code == 200 and video_path`. -/
def schedulesCleanup (status : Nat) (videoPath : Option FPath) : Bool :=
  status == 200 && pyTruthy videoPath

/-- `os.remove(path)` as seen by `_delete`: may raise (modelled by the
oracle `removeFails`), otherwise removes the file. -/
def os_remove (removeFails : Bool) (path : FPath) (files : List FPath) :
    Except String (List FPath) :=
  if removeFails then Except.error "Cleanup error"
  else Except.ok (files.erase path)

/-- The `_delete` closure (`src/app.py` lines 128–135): after the delay,
if the file exists try to remove it; any exception is caught and logged.
Returns the resulting file list and the logged error, if any — never an
exception. -/
def delete_task (removeFails : Bool) (path : FPath) (files : List FPath) :
    List FPath × Option String :=
  if path ∈ files then
    match os_remove removeFails path files with
    | Except.ok files => (files, none)
    | Except.error e => (files, some e)
  else (files, none)

/-! # Theorems -/

/-! ## Chunk counting -/

theorem chunkList_length (ws : List String) :
    (chunkList ws).length = (ws.length + (WORDS_PER_CHUNK - 1)) / WORDS_PER_CHUNK := by
  induction ws using chunkList.induct with
  | case1 => simp [chunkList, WORDS_PER_CHUNK]
  | case2 w ws ih =>
    rw [chunkList]
    simp only [List.length_cons, List.length_drop] at *
    rw [ih]
    simp only [WORDS_PER_CHUNK]
    omega

theorem chunkList_ne_nil (ws : List String) (h : ws ≠ []) : chunkList ws ≠ [] := by
  cases ws with
  | nil => exact absurd rfl h
  | cons w ws => rw [chunkList]; exact List.cons_ne_nil _ _

theorem chunksOf_length (text : String) :
    (chunksOf text).length = ((pySplit text).length + (WORDS_PER_CHUNK - 1)) / WORDS_PER_CHUNK := by
  rw [chunksOf, List.length_map, chunkList_length]

theorem chunksOf_ne_nil (text : String) (h : pySplit text ≠ []) : chunksOf text ≠ [] := by
  rw [chunksOf]
  simp only [ne_eq, List.map_eq_nil_iff]
  exact chunkList_ne_nil _ h

/-- **C2.** For every input text containing at least one
whitespace-separated word, the number of subtitle chunks equals
`ceil(word_count / words_per_chunk)` — in natural-number arithmetic,
`(word_count + 7) / 8` with `words_per_chunk = 8`. -/
theorem chunk_count_is_ceil (text : String) (h : 0 < (pySplit text).length) :
    (chunksOf text).length =
      ((pySplit text).length + WORDS_PER_CHUNK - 1) / WORDS_PER_CHUNK := by
  rw [chunksOf_length]
  simp only [WORDS_PER_CHUNK]
  omega

/-- Witness for `chunk_count_is_ceil`: a 9-word text yields
`⌈9/8⌉ = 2` chunks. -/
theorem chunk_count_is_ceil_witness :
    0 < (pySplit "w1 w2 w3 w4 w5 w6 w7 w8 w9").length ∧
      (chunksOf "w1 w2 w3 w4 w5 w6 w7 w8 w9").length =
        ((pySplit "w1 w2 w3 w4 w5 w6 w7 w8 w9").length + WORDS_PER_CHUNK - 1) /
          WORDS_PER_CHUNK :=
  ⟨by decide, chunk_count_is_ceil "w1 w2 w3 w4 w5 w6 w7 w8 w9" (by decide)⟩

/-! ## The partition invariant (C1) -/

theorem subtitleTimes_length (text : String) (total : Nat) :
    (subtitleTimes text total).length = (chunksOf text).length := by
  rw [subtitleTimes]
  simp

theorem subtitleTimes_get (text : String) (total : Nat) (i : Nat)
    (hi : i < (subtitleTimes text total).length) :
    (subtitleTimes text total).get ⟨i, hi⟩ =
      (chunkStart (total / (chunksOf text).length) i,
       chunkEnd total (total / (chunksOf text).length) (chunksOf text).length i) := by
  simp [subtitleTimes]

/-- **C1.** For every text with at least one word and every measured
duration `total`, the subtitle windows exactly partition `[0, total)`:
there is at least one window, the first starts at `0`, the last ends at
`total`, each window's end is the next window's start, and every window
is non-degenerate (`start ≤ end`), so there are no gaps and no
overlaps. -/
theorem subtitle_partition (text : String) (total : Nat)
    (h : pySplit text ≠ []) :
    (subtitleTimes text total).length ≠ 0 ∧
    (∀ (h0 : 0 < (subtitleTimes text total).length),
      ((subtitleTimes text total).get ⟨0, h0⟩).1 = 0) ∧
    (∀ (hl : (subtitleTimes text total).length - 1 < (subtitleTimes text total).length),
      ((subtitleTimes text total).get ⟨(subtitleTimes text total).length - 1, hl⟩).2 = total) ∧
    (∀ i (hi1 : i + 1 < (subtitleTimes text total).length),
      ((subtitleTimes text total).get ⟨i, Nat.lt_of_succ_lt hi1⟩).2 =
        ((subtitleTimes text total).get ⟨i + 1, hi1⟩).1) ∧
    (∀ i (hi : i < (subtitleTimes text total).length),
      ((subtitleTimes text total).get ⟨i, hi⟩).1 ≤
        ((subtitleTimes text total).get ⟨i, hi⟩).2) := by
  have hn : (chunksOf text).length ≠ 0 := by
    intro hc
    exact chunksOf_ne_nil text h (List.eq_nil_of_length_eq_zero hc)
  have hlen := subtitleTimes_length text total
  refine ⟨by omega, ?_, ?_, ?_, ?_⟩
  · intro h0
    rw [subtitleTimes_get]
    simp [chunkStart]
  · intro hl
    rw [subtitleTimes_get, hlen]
    simp only [chunkEnd]
    rw [if_pos (by omega)]
  · intro i hi1
    rw [subtitleTimes_get, subtitleTimes_get]
    simp only [chunkEnd, chunkStart]
    rw [if_neg (by omega)]
  · intro i hi
    rw [subtitleTimes_get]
    simp only [chunkStart, chunkEnd]
    by_cases hc : i + 1 = (chunksOf text).length
    · rw [if_pos hc]
      calc i * (total / (chunksOf text).length)
          ≤ (chunksOf text).length * (total / (chunksOf text).length) :=
            Nat.mul_le_mul_right _ (by omega)
        _ = total / (chunksOf text).length * (chunksOf text).length := Nat.mul_comm _ _
        _ ≤ total := Nat.div_mul_le_self total _
    · rw [if_neg hc]
      exact Nat.mul_le_mul_right _ (by omega)

/-! ## Splitting and stripping lemmas -/

theorem splitWsAux_ne_nil_of_acc (cs : List Char) (acc : List Char) (h : acc ≠ []) :
    splitWsAux cs acc ≠ [] := by
  induction cs generalizing acc with
  | nil => simp [splitWsAux, h]
  | cons c cs ih =>
    rw [splitWsAux]
    by_cases hs : pyIsSpace c
    · simp only [hs, if_true, if_neg h]
      exact List.cons_ne_nil _ _
    · simp only [hs, if_false]
      exact ih _ (List.cons_ne_nil _ _)

theorem splitWsAux_ne_nil (cs : List Char) (acc : List Char)
    (h : ∃ c ∈ cs, pyIsSpace c = false) : splitWsAux cs acc ≠ [] := by
  induction cs generalizing acc with
  | nil => simp at h
  | cons c cs ih =>
    rw [splitWsAux]
    by_cases hs : pyIsSpace c
    · have h' : ∃ c ∈ cs, pyIsSpace c = false := by
        rcases h with ⟨d, hd, hdf⟩
        rcases List.mem_cons.mp hd with hd | hd
        · rw [hd] at hdf; rw [hs] at hdf; cases hdf
        · exact ⟨d, hd, hdf⟩
      by_cases ha : acc = []
      · simp only [hs, if_true, ha, if_pos rfl]
        exact ih _ h'
      · simp only [hs, if_true, if_neg ha]
        exact List.cons_ne_nil _ _
    · simp only [hs, if_false]
      exact splitWsAux_ne_nil_of_acc _ _ (List.cons_ne_nil _ _)

theorem dropWhile_head_not (p : Char → Bool) (l : List Char) (c : Char) (cs : List Char)
    (h : l.dropWhile p = c :: cs) : p c = false := by
  induction l with
  | nil => simp [List.dropWhile] at h
  | cons a l ih =>
    rw [List.dropWhile_cons] at h
    cases hpa : p a
    · rw [hpa] at h
      simp at h
      rw [← h.1]
      exact hpa
    · rw [hpa] at h
      simp at h
      exact ih h

theorem pyStripL_has_word (cs : List Char) (h : pyStripL cs ≠ []) :
    ∃ c ∈ pyStripL cs, pyIsSpace c = false := by
  rcases hd : (cs.dropWhile pyIsSpace).reverse.dropWhile pyIsSpace with _ | ⟨c, rest⟩
  · rw [pyStripL, hd] at h
    simp at h
  · refine ⟨c, ?_, dropWhile_head_not _ _ _ _ hd⟩
    rw [pyStripL, hd]
    simp

theorem pySplit_pyStrip_ne_nil (s : String) (h : pyStrip s ≠ "") :
    pySplit (pyStrip s) ≠ [] := by
  have hl : pyStripL s.data ≠ [] := by
    intro hc
    apply h
    rw [pyStrip, hc]
  rw [pyStrip, pySplit]
  simp only [ne_eq, List.map_eq_nil_iff]
  exact splitWsAux_ne_nil _ _ (pyStripL_has_word _ hl)

/-! ## C10: no division by zero through the handler guard -/

theorem build_video_no_zero_div (env : Env) (uid text : String) (st : St)
    (h : pySplit text ≠ []) :
    (build_video env uid text st).1 ≠ Except.error Err.zeroDivisionError := by
  rw [build_video]
  by_cases hs : env.synthOk
  · simp only [hs, Bool.not_true, Bool.false_eq_true, if_false]
    have hz : ((chunkList (pySplit text)).map (fun g => String.intercalate " " g)).length ≠ 0 := by
      simp only [List.length_map]
      intro hc
      exact chunkList_ne_nil _ h (List.eq_nil_of_length_eq_zero hc)
    simp only [hz, if_false]
    by_cases he : env.encodeOk <;> simp [he]
  · simp [hs]

/-- **C10.** Splitting a string that is non-empty after stripping yields
at least one word; consequently the chunk list in `build_video` is
non-empty and `slice_ms = total_ms // len(chunks)` never divides by
zero: through the handler's validation guard, the `ZeroDivisionError`
is unreachable for every request. -/
theorem zero_word_crash_unreachable :
    (∀ s : String, pyStrip s ≠ "" → pySplit (pyStrip s) ≠ []) ∧
    (∀ (env : Env) (uid : String) (formText : Option String) (st : St),
      (index_post env uid formText st).1 ≠ Except.error Err.zeroDivisionError) := by
  refine ⟨pySplit_pyStrip_ne_nil, ?_⟩
  intro env uid formText st
  rw [index_post]
  by_cases ht : pyStrip (formText.getD "") = ""
  · simp [ht]
  · simp only [ht, if_false]
    have hw := pySplit_pyStrip_ne_nil _ ht
    have hbv := build_video_no_zero_div env uid (pyStrip (formText.getD "")) st hw
    rcases hr : build_video env uid (pyStrip (formText.getD "")) st with ⟨res, st'⟩
    rw [hr] at hbv
    match res, hbv with
    | Except.ok mp4, _ => simp
    | Except.error Err.synthesisError, _ => simp
    | Except.error Err.calledProcessError, _ => simp
    | Except.error Err.zeroDivisionError, hbv => exact absurd rfl hbv

/-- Witness for `zero_word_crash_unreachable`: instantiated at a
concrete request with non-blank text. -/
theorem zero_word_crash_unreachable_witness :
    pyStrip " नमस्ते " ≠ "" ∧
      pySplit (pyStrip " नमस्ते ") ≠ [] ∧
      (index_post ⟨true, 500, true⟩ "u1" (some " नमस्ते ") ⟨[], [], []⟩).1 ≠
        Except.error Err.zeroDivisionError :=
  ⟨by decide,
   zero_word_crash_unreachable.1 " नमस्ते " (by decide),
   zero_word_crash_unreachable.2 ⟨true, 500, true⟩ "u1" (some " नमस्ते ") ⟨[], [], []⟩⟩

/-! ## C5: empty or whitespace-only text -/

/-- **C5.** For every request whose submitted text is empty or
whitespace-only (i.e. empty after `strip()`), the handler returns the
validation-error page and leaves the state — including the list of
invoked pipeline stages — untouched: neither the speech-synthesis stage
nor the encoding stage is ever invoked. -/
theorem empty_text_no_pipeline (env : Env) (uid : String) (formText : Option String)
    (st : St) (h : pyStrip (formText.getD "") = "") :
    index_post env uid formText st =
      (Except.ok (⟨200, Body.htmlForm (some validationMsg)⟩, none), st) ∧
    ((index_post env uid formText st).2).stages = st.stages := by
  rw [index_post]
  simp [h]

/-- Witness for `empty_text_no_pipeline`: whitespace-only form text. -/
theorem empty_text_no_pipeline_witness :
    pyStrip ((some "  \t ").getD "") = "" ∧
      (index_post ⟨true, 500, true⟩ "u2" (some "  \t ") ⟨[], [], []⟩ =
        (Except.ok (⟨200, Body.htmlForm (some validationMsg)⟩, none), ⟨[], [], []⟩) ∧
      ((index_post ⟨true, 500, true⟩ "u2" (some "  \t ") ⟨[], [], []⟩).2).stages = []) :=
  ⟨by decide, empty_text_no_pipeline ⟨true, 500, true⟩ "u2" (some "  \t ") ⟨[], [], []⟩ (by decide)⟩

/-- Witness for `subtitle_partition`: three words, duration 1000 ms. -/
theorem subtitle_partition_witness :
    pySplit "एक दो तीन" ≠ [] ∧
    ((subtitleTimes "एक दो तीन" 1000).length ≠ 0 ∧
    (∀ (h0 : 0 < (subtitleTimes "एक दो तीन" 1000).length),
      ((subtitleTimes "एक दो तीन" 1000).get ⟨0, h0⟩).1 = 0) ∧
    (∀ (hl : (subtitleTimes "एक दो तीन" 1000).length - 1 < (subtitleTimes "एक दो तीन" 1000).length),
      ((subtitleTimes "एक दो तीन" 1000).get
        ⟨(subtitleTimes "एक दो तीन" 1000).length - 1, hl⟩).2 = 1000) ∧
    (∀ i (hi1 : i + 1 < (subtitleTimes "एक दो तीन" 1000).length),
      ((subtitleTimes "एक दो तीन" 1000).get ⟨i, Nat.lt_of_succ_lt hi1⟩).2 =
        ((subtitleTimes "एक दो तीन" 1000).get ⟨i + 1, hi1⟩).1) ∧
    (∀ i (hi : i < (subtitleTimes "एक दो तीन" 1000).length),
      ((subtitleTimes "एक दो तीन" 1000).get ⟨i, hi⟩).1 ≤
        ((subtitleTimes "एक दो तीन" 1000).get ⟨i, hi⟩).2)) :=
  ⟨by decide, subtitle_partition "एक दो तीन" 1000 (by decide)⟩

/-! ## Evaluation lemmas for `build_video` -/

theorem build_video_synth_fail_eq (env : Env) (uid text : String) (st : St)
    (hs : env.synthOk = false) :
    build_video env uid text st =
      (Except.error Err.synthesisError,
       { st with stages := st.stages ++ [Stage.synthesis] }) := by
  rw [build_video]
  simp [hs]

theorem build_video_encode_fail_eq (env : Env) (uid text : String) (st : St)
    (hs : env.synthOk = true) (he : env.encodeOk = false) (hw : pySplit text ≠ []) :
    build_video env uid text st =
      (Except.error Err.calledProcessError,
       { files := ⟨uid, Ext.srt⟩ :: ⟨uid, Ext.mp3⟩ :: st.files,
         stages := st.stages ++ [Stage.synthesis, Stage.encoding],
         srtWrites :=
           (⟨uid, Ext.srt⟩, srtContent (chunksOf text) env.durationMs) :: st.srtWrites }) := by
  rw [build_video]
  have hz : ¬(((chunkList (pySplit text)).map (fun g => String.intercalate " " g)).length = 0) := by
    simp only [List.length_map]
    intro hc
    exact chunkList_ne_nil _ hw (List.eq_nil_of_length_eq_zero hc)
  simp [hs, he, hz, chunksOf, chunkList_ne_nil _ hw]

theorem build_video_success_eq (env : Env) (uid text : String) (st : St)
    (hs : env.synthOk = true) (he : env.encodeOk = true) (hw : pySplit text ≠ []) :
    build_video env uid text st =
      (Except.ok ⟨uid, Ext.mp4⟩,
       { files := ⟨uid, Ext.mp4⟩ :: st.files,
         stages := st.stages ++ [Stage.synthesis, Stage.encoding],
         srtWrites :=
           (⟨uid, Ext.srt⟩, srtContent (chunksOf text) env.durationMs) :: st.srtWrites }) := by
  rw [build_video]
  have hz : ¬(((chunkList (pySplit text)).map (fun g => String.intercalate " " g)).length = 0) := by
    simp only [List.length_map]
    intro hc
    exact chunkList_ne_nil _ hw (List.eq_nil_of_length_eq_zero hc)
  have h43 : ¬((⟨uid, Ext.mp4⟩ : FPath) == ⟨uid, Ext.mp3⟩) = true := by simp
  have hs3 : ¬((⟨uid, Ext.srt⟩ : FPath) == ⟨uid, Ext.mp3⟩) = true := by simp
  have h4s : ¬((⟨uid, Ext.mp4⟩ : FPath) == ⟨uid, Ext.srt⟩) = true := by simp
  simp only [hs, he, hz, Bool.not_true, Bool.false_eq_true, if_false, ite_false, ite_true]
  rw [List.erase_cons_tail h43, List.erase_cons_tail hs3, List.erase_cons_head,
      List.erase_cons_tail h4s, List.erase_cons_head]
  simp [chunksOf]

/-! ## C7: success deletes the intermediates -/

/-- **C7.** When synthesis and encoding both succeed (and the text has at
least one word), `build_video` removes the intermediate `.mp3` and
`.srt` files before returning the `.mp4` path: the final file state is
exactly the video artifact on top of the pre-existing files, and neither
intermediate survives (when it did not already exist beforehand). -/
theorem success_deletes_intermediates (env : Env) (uid text : String) (st : St)
    (hs : env.synthOk = true) (he : env.encodeOk = true) (hw : pySplit text ≠ []) :
    build_video env uid text st =
      (Except.ok ⟨uid, Ext.mp4⟩,
       { files := ⟨uid, Ext.mp4⟩ :: st.files,
         stages := st.stages ++ [Stage.synthesis, Stage.encoding],
         srtWrites :=
           (⟨uid, Ext.srt⟩, srtContent (chunksOf text) env.durationMs) :: st.srtWrites }) ∧
    (⟨uid, Ext.mp3⟩ ∉ st.files → ⟨uid, Ext.mp3⟩ ∉ (build_video env uid text st).2.files) ∧
    (⟨uid, Ext.srt⟩ ∉ st.files → ⟨uid, Ext.srt⟩ ∉ (build_video env uid text st).2.files) := by
  have heq := build_video_success_eq env uid text st hs he hw
  refine ⟨heq, ?_, ?_⟩ <;> intro hmem <;> rw [heq] <;> simp <;> exact fun h => absurd h hmem

/-- Witness for `success_deletes_intermediates`. -/
theorem success_deletes_intermediates_witness :
    (⟨true, 900, true⟩ : Env).synthOk = true ∧ (⟨true, 900, true⟩ : Env).encodeOk = true ∧
    pySplit "नमस्ते दुनिया" ≠ [] ∧
    (build_video ⟨true, 900, true⟩ "u6" "नमस्ते दुनिया" ⟨[], [], []⟩ =
      (Except.ok ⟨"u6", Ext.mp4⟩,
       { files := [⟨"u6", Ext.mp4⟩],
         stages := [Stage.synthesis, Stage.encoding],
         srtWrites :=
           [(⟨"u6", Ext.srt⟩, srtContent (chunksOf "नमस्ते दुनिया") 900)] }) ∧
    (⟨"u6", Ext.mp3⟩ ∉ ([] : List FPath) →
      ⟨"u6", Ext.mp3⟩ ∉ (build_video ⟨true, 900, true⟩ "u6" "नमस्ते दुनिया" ⟨[], [], []⟩).2.files) ∧
    (⟨"u6", Ext.srt⟩ ∉ ([] : List FPath) →
      ⟨"u6", Ext.srt⟩ ∉ (build_video ⟨true, 900, true⟩ "u6" "नमस्ते दुनिया" ⟨[], [], []⟩).2.files)) :=
  ⟨rfl, rfl, by decide,
   success_deletes_intermediates ⟨true, 900, true⟩ "u6" "नमस्ते दुनिया" ⟨[], [], []⟩ rfl rfl (by decide)⟩

/-! ## Evaluation lemmas for `index_post` -/

theorem index_post_encode_fail_eq (env : Env) (uid : String) (formText : Option String)
    (st : St) (hs : env.synthOk = true) (he : env.encodeOk = false)
    (ht : pyStrip (formText.getD "") ≠ "") :
    index_post env uid formText st =
      (Except.ok (⟨200, Body.htmlForm (some ffmpegErrorMsg)⟩, none),
       { files := ⟨uid, Ext.srt⟩ :: ⟨uid, Ext.mp3⟩ :: st.files,
         stages := st.stages ++ [Stage.synthesis, Stage.encoding],
         srtWrites :=
           (⟨uid, Ext.srt⟩,
            srtContent (chunksOf (pyStrip (formText.getD ""))) env.durationMs) ::
             st.srtWrites }) := by
  have hw := pySplit_pyStrip_ne_nil _ ht
  rw [index_post]
  simp only [ht, if_false]
  rw [build_video_encode_fail_eq env uid _ st hs he hw]

theorem index_post_synth_fail_eq (env : Env) (uid : String) (formText : Option String)
    (st : St) (hs : env.synthOk = false) (ht : pyStrip (formText.getD "") ≠ "") :
    index_post env uid formText st =
      (Except.error Err.synthesisError,
       { st with stages := st.stages ++ [Stage.synthesis] }) := by
  rw [index_post]
  simp only [ht, if_false]
  rw [build_video_synth_fail_eq env uid _ st hs]

/-! ## C4: which pipeline failures are caught (corrected) -/

/-- **C4, counterexample.** The claim says every speech-synthesis
failure is caught and converted into a user-facing error response.  At a
concrete request with valid text and a failing speech service, the
handler's result is the raised `SynthesisError` itself (the `except`
clause at `src/app.py` line 112 only catches
`subprocess.CalledProcessError`), not an `ok` response. -/
theorem synthesis_error_uncaught_counterexample :
    index_post ⟨false, 0, true⟩ "u3" (some "नमस्ते") ⟨[], [], []⟩ =
      (Except.error Err.synthesisError, ⟨[], [Stage.synthesis], []⟩) := by
  rfl

/-- **C4, amended.** Failures of the video-encoding stage are caught
around the encoder invocation and converted into a user-facing error
message on the form path; failures of the speech-synthesis stage are
*not* caught by the handler and propagate out of it as an uncaught
exception (left to the web framework's generic error handling).  There
is no API path. -/
theorem pipeline_errors_caught_amended (env : Env) (uid : String)
    (formText : Option String) (st : St) (ht : pyStrip (formText.getD "") ≠ "") :
    (env.synthOk = true → env.encodeOk = false →
      (index_post env uid formText st).1 =
        Except.ok (⟨200, Body.htmlForm (some ffmpegErrorMsg)⟩, none)) ∧
    (env.synthOk = false →
      (index_post env uid formText st).1 = Except.error Err.synthesisError) := by
  constructor
  · intro hs he
    rw [index_post_encode_fail_eq env uid formText st hs he ht]
  · intro hs
    rw [index_post_synth_fail_eq env uid formText st hs ht]

/-- Witness for `pipeline_errors_caught_amended`. -/
theorem pipeline_errors_caught_amended_witness :
    pyStrip ((some "नमस्ते").getD "") ≠ "" ∧
    (((⟨true, 700, false⟩ : Env).synthOk = true → (⟨true, 700, false⟩ : Env).encodeOk = false →
      (index_post ⟨true, 700, false⟩ "u7" (some "नमस्ते") ⟨[], [], []⟩).1 =
        Except.ok (⟨200, Body.htmlForm (some ffmpegErrorMsg)⟩, none)) ∧
    ((⟨true, 700, false⟩ : Env).synthOk = false →
      (index_post ⟨true, 700, false⟩ "u7" (some "नमस्ते") ⟨[], [], []⟩).1 =
        Except.error Err.synthesisError)) :=
  ⟨by decide, pipeline_errors_caught_amended ⟨true, 700, false⟩ "u7" (some "नमस्ते") ⟨[], [], []⟩ (by decide)⟩

/-! ## C6: encoder failure on the form endpoint (corrected) -/

/-- **C6, counterexample.** The claim says that on encoder failure no
generated file is left behind undeleted.  At a concrete request with a
failing encoder, the form endpoint does return an HTTP 200 page with the
error message and streams no video — but the generated intermediate
files `u4.srt` and `u4.mp3` remain on disk: `build_video` raises before
reaching its cleanup lines (`src/app.py` lines 95–99). -/
theorem encoder_failure_leftover_counterexample :
    (index_post ⟨true, 1000, false⟩ "u4" (some "hello world") ⟨[], [], []⟩).1 =
      Except.ok (⟨200, Body.htmlForm (some ffmpegErrorMsg)⟩, none) ∧
    ((index_post ⟨true, 1000, false⟩ "u4" (some "hello world") ⟨[], [], []⟩).2).files =
      [⟨"u4", Ext.srt⟩, ⟨"u4", Ext.mp3⟩] ∧
    ([⟨"u4", Ext.srt⟩, ⟨"u4", Ext.mp3⟩] : List FPath) ≠ [] := by
  rw [index_post_encode_fail_eq ⟨true, 1000, false⟩ "u4" (some "hello world") ⟨[], [], []⟩
        rfl rfl (by decide)]
  exact ⟨rfl, rfl, by decide⟩

/-- **C6, amended.** On encoder failure the form endpoint returns an
HTTP 200 page containing the error message, no video bytes are streamed
(the body is the HTML form, not a file attachment; `request.video_path`
stays unset), and no video artifact is left behind — but the
intermediate audio (`.mp3`) and subtitle (`.srt`) files *are* left
behind undeleted. -/
theorem encoder_failure_leaves_intermediates (env : Env) (uid : String)
    (formText : Option String) (st : St) (hs : env.synthOk = true)
    (he : env.encodeOk = false) (ht : pyStrip (formText.getD "") ≠ "") :
    index_post env uid formText st =
      (Except.ok (⟨200, Body.htmlForm (some ffmpegErrorMsg)⟩, none),
       { files := ⟨uid, Ext.srt⟩ :: ⟨uid, Ext.mp3⟩ :: st.files,
         stages := st.stages ++ [Stage.synthesis, Stage.encoding],
         srtWrites :=
           (⟨uid, Ext.srt⟩,
            srtContent (chunksOf (pyStrip (formText.getD ""))) env.durationMs) ::
             st.srtWrites }) ∧
    (⟨uid, Ext.mp4⟩ ∉ st.files →
      ⟨uid, Ext.mp4⟩ ∉ ((index_post env uid formText st).2).files) := by
  have heq := index_post_encode_fail_eq env uid formText st hs he ht
  refine ⟨heq, ?_⟩
  intro hmem
  rw [heq]
  simp
  exact fun h => absurd h hmem

/-- Witness for `encoder_failure_leaves_intermediates`. -/
theorem encoder_failure_leaves_intermediates_witness :
    (⟨true, 1000, false⟩ : Env).synthOk = true ∧
    (⟨true, 1000, false⟩ : Env).encodeOk = false ∧
    pyStrip ((some "hello world").getD "") ≠ "" ∧
    (index_post ⟨true, 1000, false⟩ "u4" (some "hello world") ⟨[], [], []⟩ =
      (Except.ok (⟨200, Body.htmlForm (some ffmpegErrorMsg)⟩, none),
       { files := [⟨"u4", Ext.srt⟩, ⟨"u4", Ext.mp3⟩],
         stages := [Stage.synthesis, Stage.encoding],
         srtWrites :=
           [(⟨"u4", Ext.srt⟩,
             srtContent (chunksOf (pyStrip ((some "hello world").getD ""))) 1000)] }) ∧
    (⟨"u4", Ext.mp4⟩ ∉ ([] : List FPath) →
      ⟨"u4", Ext.mp4⟩ ∉
        ((index_post ⟨true, 1000, false⟩ "u4" (some "hello world") ⟨[], [], []⟩).2).files)) :=
  ⟨rfl, rfl, by decide,
   encoder_failure_leaves_intermediates ⟨true, 1000, false⟩ "u4" (some "hello world")
     ⟨[], [], []⟩ rfl rfl (by decide)⟩

/-! ## C3: the `/api` endpoint (corrected) -/

/-- **C3, counterexample.** The claim says the program exposes a
structured JSON endpoint at `POST /api` that answers 415 to non-JSON
requests.  The app registers only the route `/`
(`src/app.py` line 103); a concrete non-JSON `POST /api` request
receives the framework's 404, not 415. -/
theorem api_endpoint_missing_counterexample :
    dispatch ⟨true, 0, true⟩ "u5" ⟨"POST", "/api", "text/plain", none⟩ ⟨[], [], []⟩ =
      (Except.ok (⟨404, Body.frameworkError⟩, none), ⟨[], [], []⟩) ∧
    (404 : Nat) ≠ 415 := by
  exact ⟨rfl, by decide⟩

/-- **C3, amended.** The program exposes no `/api` endpoint at all: its
only route is `/` (the HTML-form endpoint, GET and POST).  Every request
whose path is not `/` — in particular every `POST /api` request, JSON or
not, with or without a `text` field — receives the framework's 404
response, and the handler state is untouched. -/
theorem api_requests_get_404 (env : Env) (uid : String) (req : HttpRequest) (st : St)
    (h : req.path ≠ "/") :
    dispatch env uid req st = (Except.ok (⟨404, Body.frameworkError⟩, none), st) := by
  rw [dispatch, if_neg h]

/-- Witness for `api_requests_get_404`: a JSON `POST /api` request. -/
theorem api_requests_get_404_witness :
    (⟨"POST", "/api", "application/json", some "नमस्ते"⟩ : HttpRequest).path ≠ "/" ∧
    dispatch ⟨true, 0, true⟩ "u8" ⟨"POST", "/api", "application/json", some "नमस्ते"⟩ ⟨[], [], []⟩ =
      (Except.ok (⟨404, Body.frameworkError⟩, none), ⟨[], [], []⟩) :=
  ⟨by decide,
   api_requests_get_404 ⟨true, 0, true⟩ "u8"
     ⟨"POST", "/api", "application/json", some "नमस्ते"⟩ ⟨[], [], []⟩ (by decide)⟩

/-! ## C8: deferred cleanup -/

/-- **C8.** The deferred-cleanup deletion task is scheduled iff the
response status is 200 and the request carries a produced video path;
at deletion time a missing file is a no-op; a failing `os.remove` is
caught, the error is only logged (the second component of the returned
pair — `delete_task` returns a value, never an exception, so nothing
propagates to any client), and a successful removal deletes exactly the
file. -/
theorem deferred_cleanup_contract (status : Nat) (videoPath : Option FPath)
    (removeFails : Bool) (path : FPath) (files : List FPath) :
    (schedulesCleanup status videoPath = true ↔ (status = 200 ∧ videoPath ≠ none)) ∧
    (path ∉ files → delete_task removeFails path files = (files, none)) ∧
    (∀ e, path ∈ files → os_remove removeFails path files = Except.error e →
      delete_task removeFails path files = (files, some e)) ∧
    (removeFails = false → path ∈ files →
      delete_task removeFails path files = (files.erase path, none)) := by
  refine ⟨?_, ?_, ?_, ?_⟩
  · rw [schedulesCleanup, pyTruthy]
    cases videoPath <;> simp
  · intro h
    rw [delete_task, if_neg h]
  · intro e hmem herr
    rw [delete_task, if_pos hmem, herr]
  · intro hrf hmem
    rw [delete_task, if_pos hmem, os_remove, if_neg (by rw [hrf]; exact Bool.false_ne_true)]

/-- Witness for `deferred_cleanup_contract`. -/
theorem deferred_cleanup_contract_witness :
    (schedulesCleanup 200 (some ⟨"u9", Ext.mp4⟩) = true ↔
      ((200 : Nat) = 200 ∧ (some (⟨"u9", Ext.mp4⟩ : FPath)) ≠ none)) ∧
    ((⟨"u9", Ext.mp4⟩ : FPath) ∉ ([⟨"z", Ext.mp4⟩] : List FPath) →
      delete_task false ⟨"u9", Ext.mp4⟩ [⟨"z", Ext.mp4⟩] = ([⟨"z", Ext.mp4⟩], none)) ∧
    (∀ e, (⟨"u9", Ext.mp4⟩ : FPath) ∈ ([⟨"z", Ext.mp4⟩] : List FPath) →
      os_remove false ⟨"u9", Ext.mp4⟩ [⟨"z", Ext.mp4⟩] = Except.error e →
      delete_task false ⟨"u9", Ext.mp4⟩ [⟨"z", Ext.mp4⟩] = ([⟨"z", Ext.mp4⟩], some e)) ∧
    (false = false → (⟨"u9", Ext.mp4⟩ : FPath) ∈ ([⟨"z", Ext.mp4⟩] : List FPath) →
      delete_task false ⟨"u9", Ext.mp4⟩ [⟨"z", Ext.mp4⟩] =
        (([⟨"z", Ext.mp4⟩] : List FPath).erase ⟨"u9", Ext.mp4⟩, none)) :=
  deferred_cleanup_contract 200 (some ⟨"u9", Ext.mp4⟩) false ⟨"u9", Ext.mp4⟩ [⟨"z", Ext.mp4⟩]

/-! ## C9: the SRT file format (corrected) -/

/-- **C9, counterexample.** The claim says chunk text is wrapped
"without splitting words".  For a chunk consisting of one 46-character
word, `textwrap.fill(chunk, 45)` (with its default
`break_long_words=True`) splits the word after 45 characters: the
wrapped text's words are the two fragments, not the original word, and
the caption file contains the fragment split across two lines.  (The
default `break_on_hyphens=True` violates the claim a second way, on
hyphenated words shorter than the width — e.g. CPython wraps the chunk
`"a"*40 ++ " ab-cdefg"` at width 45 as `"a"*40 ++ " ab-"` and `"cdefg"`,
splitting the 8-character word `ab-cdefg` at its hyphen; hyphenated text
is outside this embedding, so the amended statement below is scoped to
hyphen-free chunks.) -/
theorem long_word_split_counterexample :
    pySplit (textwrap_fill MAX_LINE_CHARS (String.mk (List.replicate 46 'a'))) =
      [String.mk (List.replicate 45 'a'), "a"] ∧
    pySplit (String.mk (List.replicate 46 'a')) = [String.mk (List.replicate 46 'a')] ∧
    ([String.mk (List.replicate 45 'a'), "a"] : List String) ≠
      [String.mk (List.replicate 46 'a')] ∧
    srtContent [String.mk (List.replicate 46 'a')] 1000 =
      "1\n00:00:00,000 --> 00:00:01,000\n" ++ String.mk (List.replicate 45 'a') ++
        "\na\n\n" := by
  exact ⟨by decide, by decide, by decide, rfl⟩

/-- The timestamps in every block: minutes and seconds are reduced below
60, milliseconds below 1000, and each field is rendered zero-padded
(width 2, 2, 2 and 3). -/
theorem hms_ms_shape (ms : Nat) :
    ∃ h m s r, m < 60 ∧ s < 60 ∧ r < 1000 ∧
      hms_ms ms =
        padZero 2 h ++ ":" ++ padZero 2 m ++ ":" ++ padZero 2 s ++ "," ++ padZero 3 r :=
  ⟨ms / 1000 / 3600, ms / 1000 % 3600 / 60, ms / 1000 % 3600 % 60, ms % 1000,
   by omega, by omega, by omega, rfl⟩

/-- The `for` loop writes one block per chunk, with consecutive 1-based
indices starting at `i`. -/
theorem srtLoop_closed (chunks : List String) (t sl n : Nat) : ∀ i : Nat,
    srtLoop t sl n i chunks =
      srtJoin ((List.range chunks.length).map
        (fun k => srtBlock t sl n (i + k) (chunks.getD k ""))) := by
  induction chunks with
  | nil => intro i; simp [srtLoop, srtJoin]
  | cons c rest ih =>
    intro i
    rw [srtLoop, List.length_cons, List.range_succ_eq_map, List.map_cons, srtJoin]
    rw [List.map_map]
    have harg :
        ((fun k => srtBlock t sl n (i + k) ((c :: rest).getD k "")) ∘ (· + 1)) =
          (fun k => srtBlock t sl n (i + 1 + k) (rest.getD k "")) := by
      funext k
      simp only [Function.comp]
      have h1 : i + (k + 1) = i + 1 + k := by omega
      rw [h1]
      rfl
    rw [harg, ← ih (i + 1)]
    simp

/-! ## Word-splitting lemmas for the wrap proofs -/

theorem isBlank_of_space (c : List Char) (h : SpaceChunk c) : isBlank c = true := by
  rw [isBlank, List.all_eq_true]
  intro a ha
  rw [h a ha]
  rfl

theorem isBlank_ws (c : List Char) (h : isBlank c = true) : ∀ a ∈ c, pyIsSpace a = true := by
  rw [isBlank, List.all_eq_true] at h
  exact h

theorem isBlank_of_word (c : List Char) (h : WordChunk c) (hne : c ≠ []) :
    isBlank c = false := by
  cases c with
  | nil => exact absurd rfl hne
  | cons a l =>
    rw [isBlank, List.all_cons, h a (List.mem_cons_self a l)]
    rfl

theorem splitWsAux_sep (d : Char) (hd : pyIsSpace d = true) (rest : List Char) :
    ∀ (cs : List Char) (acc : List Char),
      splitWsAux (cs ++ d :: rest) acc = splitWsAux cs acc ++ splitWsAux rest [] := by
  intro cs
  induction cs with
  | nil =>
    intro acc
    by_cases ha : acc = [] <;> simp [splitWsAux, ha, hd]
  | cons c cs ih =>
    intro acc
    by_cases hc : pyIsSpace c
    · by_cases ha : acc = [] <;> simp [splitWsAux, hc, ha, ih]
    · simp [splitWsAux, hc, ih]

theorem pySplitL_sep (d : Char) (hd : pyIsSpace d = true) (a b : List Char) :
    pySplitL (a ++ d :: b) = pySplitL a ++ pySplitL b :=
  splitWsAux_sep d hd b a []

theorem pySplitL_ws_append (s x : List Char) (h : ∀ a ∈ s, pyIsSpace a = true) :
    pySplitL (s ++ x) = pySplitL x := by
  induction s with
  | nil => rfl
  | cons c s ih =>
    rw [List.cons_append, pySplitL, splitWsAux]
    simp only [h c (List.mem_cons_self c s), if_true, if_pos rfl]
    exact ih (fun a ha => h a (List.mem_cons_of_mem c ha))

theorem splitWsAux_word (wd : List Char) (hw : ∀ a ∈ wd, pyIsSpace a = false) :
    ∀ acc : List Char, acc ≠ [] ∨ wd ≠ [] →
      splitWsAux wd acc = [acc.reverse ++ wd] := by
  induction wd with
  | nil =>
    intro acc h
    rcases h with h | h
    · simp [splitWsAux, h]
    · exact absurd rfl h
  | cons c wd ih =>
    intro acc _
    rw [splitWsAux]
    simp only [hw c (List.mem_cons_self c wd), Bool.false_eq_true, if_false]
    rw [ih (fun a ha => hw a (List.mem_cons_of_mem c ha)) (c :: acc) (Or.inl (List.cons_ne_nil c acc))]
    simp

theorem pySplitL_word (c : List Char) (h : WordChunk c) (hne : c ≠ []) :
    pySplitL c = [c] := by
  rw [pySplitL, splitWsAux_word c h [] (Or.inr hne)]
  rfl

/-- The words of the characters of a line are exactly its word chunks,
provided no two word chunks are adjacent. -/
theorem line_words (cur : List (List Char)) (hg : ∀ c ∈ cur, GoodChunk c)
    (hch : List.Chain' blankRel cur) :
    pySplitL cur.flatten = cur.filter notBlank := by
  induction cur with
  | nil => rfl
  | cons c cur ih =>
    have hgc := hg c (List.mem_cons_self c cur)
    have hgtail : ∀ x ∈ cur, GoodChunk x := fun x hx => hg x (List.mem_cons_of_mem c hx)
    have hchtail : List.Chain' blankRel cur := hch.tail
    rcases hgc with ⟨hne, hsp | hwd⟩
    · -- a space run: contributes no word
      have hblank := isBlank_of_space c hsp
      rw [List.flatten_cons, pySplitL_ws_append c cur.flatten (isBlank_ws c hblank),
          ih hgtail hchtail, List.filter_cons]
      simp [notBlank, hblank]
    · -- a word run
      have hblank := isBlank_of_word c hwd hne
      cases cur with
      | nil =>
        simp only [List.flatten_cons, List.flatten_nil, List.append_nil]
        rw [pySplitL_word c hwd hne, List.filter_cons]
        simp [notBlank, hblank]
      | cons c2 rest =>
        have hrel : blankRel c c2 := (List.chain'_cons.mp hch).1
        have hblank2 : isBlank c2 = true := by
          rcases hrel with h | h
          · rw [h] at hblank; cases hblank
          · exact h
        have hg2 := hg c2 (List.mem_cons_of_mem c (List.mem_cons_self c2 rest))
        obtain ⟨d, c2t, hd2⟩ : ∃ d c2t, c2 = d :: c2t := by
          cases c2 with
          | nil => exact absurd rfl hg2.1
          | cons d t => exact ⟨d, t, rfl⟩
        have hdws : pyIsSpace d = true :=
          isBlank_ws c2 hblank2 d (by rw [hd2]; exact List.mem_cons_self d c2t)
        have htws : ∀ a ∈ c2t, pyIsSpace a = true := by
          intro a ha
          exact isBlank_ws c2 hblank2 a (by rw [hd2]; exact List.mem_cons_of_mem d ha)
        -- split at the separating space
        have hflat : (c :: c2 :: rest).flatten = c ++ d :: (c2t ++ rest.flatten) := by
          rw [hd2]
          simp
        rw [hflat, pySplitL_sep d hdws, pySplitL_word c hwd hne,
            pySplitL_ws_append c2t rest.flatten htws]
        -- relate to the tail via the induction hypothesis
        have hih := ih hgtail hchtail
        rw [List.flatten_cons, pySplitL_ws_append c2 rest.flatten (isBlank_ws c2 hblank2)] at hih
        rw [hih, List.filter_cons, List.filter_cons]
        simp [notBlank, hblank, hblank2]

/-! ## Structural lemmas on the wrap-loop building blocks -/

theorem chunksLen_nil : chunksLen [] = 0 := rfl

theorem chunksLen_cons (c : List Char) (l : List (List Char)) :
    chunksLen (c :: l) = c.length + chunksLen l := by
  simp [chunksLen]

theorem chunksLen_append (a b : List (List Char)) :
    chunksLen (a ++ b) = chunksLen a + chunksLen b := by
  simp [chunksLen]

theorem chunksLen_flatten (l : List (List Char)) : l.flatten.length = chunksLen l := by
  rw [List.length_flatten, chunksLen]

theorem mWrap_nil : mWrap [] = 0 := rfl

theorem mWrap_append (a b : List (List Char)) : mWrap (a ++ b) = mWrap a + mWrap b := by
  simp [mWrap, chunksLen_append]
  omega

theorem mWrap_pos (l : List (List Char)) (h : l ≠ []) : 1 ≤ mWrap l := by
  cases l with
  | nil => exact absurd rfl h
  | cons c cs => simp [mWrap]; omega

theorem takeFit_append (w : Nat) :
    ∀ (cs : List (List Char)) (len : Nat),
      (takeFit w cs len).1 ++ (takeFit w cs len).2.2 = cs := by
  intro cs
  induction cs with
  | nil => intro len; rfl
  | cons c cs ih =>
    intro len
    rw [takeFit]
    by_cases h : len + c.length ≤ w
    · simp only [h, if_true, if_pos h, List.cons_append]
      rw [ih]
    · simp [h]

theorem takeFit_spec (w : Nat) :
    ∀ (cs : List (List Char)) (len : Nat),
      (takeFit w cs len).2.1 = len + chunksLen (takeFit w cs len).1 ∧
      ((takeFit w cs len).1 = [] ∨ (takeFit w cs len).2.1 ≤ w) ∧
      (∀ r rs, (takeFit w cs len).2.2 = r :: rs → ¬((takeFit w cs len).2.1 + r.length ≤ w)) := by
  intro cs
  induction cs with
  | nil =>
    intro len
    refine ⟨?_, ?_, ?_⟩
    · simp [takeFit, chunksLen_nil]
    · left
      rfl
    · intro r rs h
      simp [takeFit] at h
  | cons c cs ih =>
    intro len
    by_cases h : len + c.length ≤ w
    · have ht : takeFit w (c :: cs) len =
          (c :: (takeFit w cs (len + c.length)).1,
           (takeFit w cs (len + c.length)).2.1,
           (takeFit w cs (len + c.length)).2.2) := by
        rw [takeFit, if_pos h]
      obtain ⟨ih1, ih2, ih3⟩ := ih (len + c.length)
      rw [ht]
      refine ⟨?_, ?_, ?_⟩
      · rw [ih1, chunksLen_cons]
        omega
      · right
        rcases ih2 with h2 | h2
        · rw [ih1, h2, chunksLen_nil]
          omega
        · exact h2
      · exact ih3
    · have ht : takeFit w (c :: cs) len = ([], len, c :: cs) := by
        rw [takeFit, if_neg h]
      rw [ht]
      refine ⟨by simp [chunksLen_nil], Or.inl rfl, ?_⟩
      intro r rs hr
      injection hr with hr1 hr2
      rw [← hr1]
      exact h

theorem dropLeadBlank_filter (hv : Bool) (l : List (List Char)) :
    (dropLeadBlank hv l).filter notBlank = l.filter notBlank := by
  cases l with
  | nil => rfl
  | cons c cs =>
    rw [dropLeadBlank]
    by_cases h : hv && isBlank c
    · rw [if_pos h, List.filter_cons]
      have hb : isBlank c = true := by
        rw [Bool.and_eq_true] at h
        exact h.2
      simp [notBlank, hb]
    · rw [if_neg h]

theorem dropLeadBlank_subset (hv : Bool) (l : List (List Char)) :
    ∀ c ∈ dropLeadBlank hv l, c ∈ l := by
  cases l with
  | nil => intro c h; exact h
  | cons a cs =>
    rw [dropLeadBlank]
    by_cases h : hv && isBlank a
    · rw [if_pos h]
      intro c hc
      exact List.mem_cons_of_mem a hc
    · rw [if_neg h]
      intro c hc
      exact hc

theorem dropLeadBlank_chain (hv : Bool) (l : List (List Char))
    (h : List.Chain' blankRel l) : List.Chain' blankRel (dropLeadBlank hv l) := by
  cases l with
  | nil => exact h
  | cons a cs =>
    rw [dropLeadBlank]
    by_cases hd : hv && isBlank a
    · rw [if_pos hd]; exact h.tail
    · rw [if_neg hd]; exact h

theorem dropLeadBlank_mWrap (hv : Bool) (l : List (List Char)) :
    mWrap (dropLeadBlank hv l) ≤ mWrap l := by
  cases l with
  | nil => exact Nat.le_refl _
  | cons a cs =>
    rw [dropLeadBlank]
    by_cases hd : hv && isBlank a
    · rw [if_pos hd]
      simp [mWrap, chunksLen_cons]
      omega
    · rw [if_neg hd]

theorem dropTrailBlank_concat (L : List (List Char)) (b : List Char) :
    dropTrailBlank (L ++ [b]) = if isBlank b then L else L ++ [b] := by
  rw [dropTrailBlank, List.getLast?_concat]
  by_cases hb : isBlank b
  · simp [hb, List.dropLast_concat]
  · simp [hb]

theorem dropTrailBlank_filter (l : List (List Char)) :
    (dropTrailBlank l).filter notBlank = l.filter notBlank := by
  rcases List.eq_nil_or_concat l with rfl | ⟨L, b, rfl⟩
  · rfl
  · simp only [List.concat_eq_append]
    rw [dropTrailBlank_concat]
    by_cases hb : isBlank b
    · rw [if_pos hb, List.filter_append, List.filter_cons]
      simp [notBlank, hb]
    · rw [if_neg hb]

theorem dropTrailBlank_subset (l : List (List Char)) :
    ∀ c ∈ dropTrailBlank l, c ∈ l := by
  rcases List.eq_nil_or_concat l with rfl | ⟨L, b, rfl⟩
  · intro c h; exact h
  · simp only [List.concat_eq_append]
    rw [dropTrailBlank_concat]
    by_cases hb : isBlank b
    · rw [if_pos hb]
      intro c hc
      exact List.mem_append_left _ hc
    · rw [if_neg hb]
      intro c hc
      exact hc

theorem dropTrailBlank_chain (l : List (List Char)) (h : List.Chain' blankRel l) :
    List.Chain' blankRel (dropTrailBlank l) := by
  rcases List.eq_nil_or_concat l with rfl | ⟨L, b, rfl⟩
  · exact h
  · simp only [List.concat_eq_append] at h ⊢
    rw [dropTrailBlank_concat]
    by_cases hb : isBlank b
    · rw [if_pos hb]
      exact (List.chain'_append.mp h).1
    · rw [if_neg hb]
      exact h

theorem dropTrailBlank_chunksLen (l : List (List Char)) :
    chunksLen (dropTrailBlank l) ≤ chunksLen l := by
  rcases List.eq_nil_or_concat l with rfl | ⟨L, b, rfl⟩
  · exact Nat.le_refl _
  · simp only [List.concat_eq_append]
    rw [dropTrailBlank_concat]
    by_cases hb : isBlank b
    · rw [if_pos hb, chunksLen_append]
      omega
    · rw [if_neg hb]

theorem handleLong_nil (w cl : Nat) (cur : List (List Char)) :
    handleLong w cl cur [] = (cur, []) := rfl

theorem handleLong_cons_long (w cl : Nat) (cur : List (List Char)) (r : List Char)
    (rs : List (List Char)) (h : w < r.length) :
    handleLong w cl cur (r :: rs) =
      (cur ++ [r.take (w - cl)], r.drop (w - cl) :: rs) := by
  simp [handleLong, h]

theorem handleLong_cons_short (w cl : Nat) (cur : List (List Char)) (r : List Char)
    (rs : List (List Char)) (h : ¬w < r.length) :
    handleLong w cl cur (r :: rs) = (cur, r :: rs) := by
  simp [handleLong, h]

/-- Combined specification of one iteration of the wrap loop, under the
invariants of the word-preservation argument: the emitted line and the
remaining chunks are well-formed, the word chunks are exactly
redistributed, and the measure of the remaining chunks strictly
decreases. -/
theorem oneLine_spec (w : Nat) (hw1 : 1 ≤ w) (chunks : List (List Char)) (hv : Bool)
    (hne : chunks ≠ [])
    (hg : ∀ c ∈ chunks, GoodChunk c)
    (hch : List.Chain' blankRel chunks)
    (hfit : WordsFit w chunks) :
    (∀ c ∈ (oneLine w chunks hv).1, GoodChunk c) ∧
    List.Chain' blankRel (oneLine w chunks hv).1 ∧
    (∀ c ∈ (oneLine w chunks hv).2, GoodChunk c) ∧
    List.Chain' blankRel (oneLine w chunks hv).2 ∧
    WordsFit w (oneLine w chunks hv).2 ∧
    ((oneLine w chunks hv).1.filter notBlank ++ (oneLine w chunks hv).2.filter notBlank =
      chunks.filter notBlank) ∧
    mWrap (oneLine w chunks hv).2 < mWrap chunks := by
  have hmpos : 1 ≤ mWrap chunks := mWrap_pos chunks hne
  set D := dropLeadBlank hv chunks with hD
  have hsubD : ∀ c ∈ D, c ∈ chunks := dropLeadBlank_subset hv chunks
  have hgD : ∀ c ∈ D, GoodChunk c := fun c hc => hg c (hsubD c hc)
  have hchD : List.Chain' blankRel D := dropLeadBlank_chain hv chunks hch
  have hfitD : WordsFit w D := fun c hc hb => hfit c (hsubD c hc) hb
  have hfilD : D.filter notBlank = chunks.filter notBlank := dropLeadBlank_filter hv chunks
  have hmD : mWrap D ≤ mWrap chunks := dropLeadBlank_mWrap hv chunks
  obtain ⟨hlen, hle, hstop⟩ := takeFit_spec w D 0
  have happ := takeFit_append w D 0
  obtain ⟨cur0, curLen, rest0, ht⟩ :
      ∃ a b c, takeFit w D 0 = (a, b, c) := ⟨_, _, _, rfl⟩
  rw [ht] at hlen hle hstop happ
  simp only at hlen hle hstop happ
  have hcl : curLen = chunksLen cur0 := by omega
  have hone : oneLine w chunks hv =
      (dropTrailBlank (handleLong w curLen cur0 rest0).1,
       (handleLong w curLen cur0 rest0).2) := by
    rw [oneLine, ← hD, ht]
  have hgc0 : ∀ c ∈ cur0, GoodChunk c := fun c hc =>
    hgD c (happ ▸ List.mem_append_left _ hc)
  have hchsplit := List.chain'_append.mp (happ ▸ hchD)
  have hchcur0 : List.Chain' blankRel cur0 := hchsplit.1
  have hchrest0 : List.Chain' blankRel rest0 := hchsplit.2.1
  have hgrest0 : ∀ c ∈ rest0, GoodChunk c := fun c hc =>
    hgD c (happ ▸ List.mem_append_right _ hc)
  have hfitrest0 : WordsFit w rest0 := fun c hc hb =>
    hfitD c (happ ▸ List.mem_append_right _ hc) hb
  rcases rest0 with _ | ⟨r, rs⟩
  · -- no chunk left after the greedy take
    rw [hone, handleLong_nil]
    have hcurD : cur0 = D := by rw [← happ, List.append_nil]
    refine ⟨?_, ?_, ?_, ?_, ?_, ?_, ?_⟩
    · intro c hc
      exact hgc0 c (dropTrailBlank_subset cur0 c hc)
    · exact dropTrailBlank_chain cur0 hchcur0
    · intro c hc
      cases hc
    · exact List.chain'_nil
    · intro c hc
      cases hc
    · rw [dropTrailBlank_filter, List.filter_nil, List.append_nil, hcurD, hfilD]
    · rw [mWrap_nil]
      omega
  · have hgr := hgrest0 r (List.mem_cons_self r rs)
    have hgrs : ∀ c ∈ rs, GoodChunk c := fun c hc =>
      hgrest0 c (List.mem_cons_of_mem r hc)
    have hfitrs : WordsFit w rs := fun c hc hb =>
      hfitrest0 c (List.mem_cons_of_mem r hc) hb
    have hchrs : List.Chain' blankRel rs := hchrest0.tail
    have hfilterD : List.filter notBlank cur0 ++ List.filter notBlank (r :: rs) =
        chunks.filter notBlank := by
      rw [← List.filter_append, happ, hfilD]
    have hmWD : mWrap cur0 + mWrap (r :: rs) = mWrap D := by
      rw [← happ, mWrap_append]
    by_cases hlong : w < r.length
    · -- break the long (necessarily blank) chunk
      have hrblank : isBlank r = true := by
        cases hbr : isBlank r
        · have := hfitrest0 r (List.mem_cons_self r rs) hbr
          omega
        · rfl
      have hrspace : SpaceChunk r := by
        rcases hgr with ⟨hrne, hsp | hwd⟩
        · exact hsp
        · rw [isBlank_of_word r hwd hrne] at hrblank
          cases hrblank
      have htakespace : SpaceChunk (r.take (w - curLen)) := fun a ha =>
        hrspace a (List.mem_of_mem_take ha)
      have hdropspace : SpaceChunk (r.drop (w - curLen)) := fun a ha =>
        hrspace a (List.mem_of_mem_drop ha)
      have htakeblank : isBlank (r.take (w - curLen)) = true := isBlank_of_space _ htakespace
      have hdropblank : isBlank (r.drop (w - curLen)) = true := isBlank_of_space _ hdropspace
      have hdropne : r.drop (w - curLen) ≠ [] := by
        intro hc
        have := congrArg List.length hc
        rw [List.length_drop] at this
        simp at this
        omega
      rw [hone, handleLong_cons_long w curLen cur0 r rs hlong]
      simp only
      rw [dropTrailBlank_concat, if_pos htakeblank]
      refine ⟨?_, ?_, ?_, ?_, ?_, ?_, ?_⟩
      · exact hgc0
      · exact hchcur0
      · intro c hc
        rcases List.mem_cons.mp hc with rfl | hc
        · exact ⟨hdropne, Or.inl hdropspace⟩
        · exact hgrs c hc
      · refine List.chain'_cons'.mpr ⟨?_, hchrs⟩
        intro y _
        exact Or.inl hdropblank
      · intro c hc hb
        rcases List.mem_cons.mp hc with rfl | hc
        · rw [hdropblank] at hb
          cases hb
        · exact hfitrs c hc hb
      · rw [List.filter_cons]
        simp only [notBlank, hdropblank, Bool.not_true, Bool.false_eq_true, if_false,
          ite_false]
        rw [← hfilterD, List.filter_cons]
        simp [notBlank, hrblank]
      · have h1 : cur0 = [] ∨ 1 ≤ mWrap cur0 := by
          cases cur0 with
          | nil => exact Or.inl rfl
          | cons x xs => exact Or.inr (mWrap_pos _ (List.cons_ne_nil x xs))
        have e1 : mWrap (r.drop (w - curLen) :: rs) =
            (r.length - (w - curLen)) + chunksLen rs + (1 + rs.length) := by
          rw [mWrap, chunksLen_cons, List.length_drop, List.length_cons]
          omega
        have e2 : mWrap (r :: rs) = r.length + chunksLen rs + (1 + rs.length) := by
          rw [mWrap, chunksLen_cons, List.length_cons]
          omega
        rcases h1 with h1 | h1
        · have : curLen = 0 := by
            rw [hcl, h1, chunksLen_nil]
          omega
        · omega
    · -- the next chunk fits on a line by itself: the line is full
      have hstopr := hstop r rs rfl
      have hcur0ne : cur0 ≠ [] := by
        intro hc
        rw [hc, chunksLen_nil] at hcl
        omega
      rw [hone, handleLong_cons_short w curLen cur0 r rs hlong]
      simp only
      refine ⟨?_, ?_, ?_, ?_, ?_, ?_, ?_⟩
      · intro c hc
        exact hgc0 c (dropTrailBlank_subset cur0 c hc)
      · exact dropTrailBlank_chain cur0 hchcur0
      · exact hgrest0
      · exact hchrest0
      · exact hfitrest0
      · rw [dropTrailBlank_filter, hfilterD]
      · have := mWrap_pos cur0 hcur0ne
        omega

/-- With enough fuel, the wrap loop redistributes exactly the word
chunks over its lines. -/
theorem wrapLoop_words (w : Nat) (hw1 : 1 ≤ w) :
    ∀ (fuel : Nat) (chunks : List (List Char)) (hv : Bool),
      mWrap chunks + 1 ≤ fuel →
      (∀ c ∈ chunks, GoodChunk c) →
      List.Chain' blankRel chunks →
      WordsFit w chunks →
      ((wrapLoop w fuel chunks hv).map pySplitL).flatten = chunks.filter notBlank := by
  intro fuel
  induction fuel with
  | zero =>
    intro chunks hv hf
    omega
  | succ f ih =>
    intro chunks hv hf hg hch hfit
    cases chunks with
    | nil => rfl
    | cons c cs =>
      obtain ⟨hg1, hch1, hg2, hch2, hfit2, hfil, hm⟩ :=
        oneLine_spec w hw1 (c :: cs) hv (List.cons_ne_nil c cs) hg hch hfit
      rcases hp : (oneLine w (c :: cs) hv).1 with _ | ⟨l0, ls⟩
      · have hred : wrapLoop w (f + 1) (c :: cs) hv =
            wrapLoop w f (oneLine w (c :: cs) hv).2 hv := by
          rw [wrapLoop, hp]
        rw [hred, ih _ hv (by omega) hg2 hch2 hfit2, ← hfil, hp]
        rfl
      · have hred : wrapLoop w (f + 1) (c :: cs) hv =
            (l0 :: ls).flatten :: wrapLoop w f (oneLine w (c :: cs) hv).2 true := by
          rw [wrapLoop, hp]
        rw [hred, List.map_cons, List.flatten_cons,
            line_words (l0 :: ls) (hp ▸ hg1) (hp ▸ hch1),
            ih _ true (by omega) hg2 hch2 hfit2, ← hfil, hp]

/-! ## `splitRuns` produces well-formed alternating chunks -/

theorem space_of_spaceChunk (acc : List Char) (h : SpaceChunk acc) (a : Char)
    (ha : a ∈ acc) : (a = ' ') = True := by
  simp [h a ha]

theorem runsAux_good (cs : List Char) :
    ∀ acc : List Char,
      (∀ c ∈ cs, pyIsSpace c = true → c = ' ') →
      (acc = [] ∨ SpaceChunk acc ∨ WordChunk acc) →
      ∀ r ∈ runsAux cs acc, GoodChunk r := by
  induction cs with
  | nil =>
    intro acc _ hacc r hr
    rw [runsAux] at hr
    by_cases ha : acc = []
    · rw [if_pos ha] at hr
      cases hr
    · rw [if_neg ha] at hr
      rcases List.mem_cons.mp hr with rfl | h
      · refine ⟨by simpa using ha, ?_⟩
        rcases hacc with h | h | h
        · exact absurd h ha
        · exact Or.inl (fun a hx => h a (List.mem_reverse.mp hx))
        · exact Or.inr (fun a hx => h a (List.mem_reverse.mp hx))
      · cases h
  | cons c cs ih =>
    intro acc hw hacc r hr
    have hwtail : ∀ x ∈ cs, pyIsSpace x = true → x = ' ' :=
      fun x hx => hw x (List.mem_cons_of_mem c hx)
    have hc1 : SpaceChunk [c] ∨ WordChunk [c] := by
      by_cases hc : c = ' '
      · left
        intro a ha
        rw [List.mem_singleton.mp ha, hc]
      · right
        intro a ha
        rw [List.mem_singleton.mp ha]
        cases hpc : pyIsSpace c
        · rfl
        · exact absurd (hw c (List.mem_cons_self c cs) hpc) hc
    rcases acc with _ | ⟨a, t⟩
    · rw [runsAux] at hr
      exact ih [c] hwtail (Or.inr hc1) r hr
    · rw [runsAux] at hr
      rcases hacc with h | hacc
      · cases h
      by_cases hty : ((a = ' ') : Bool) = ((c = ' ') : Bool)
      · rw [if_pos hty] at hr
        have hext : SpaceChunk (c :: a :: t) ∨ WordChunk (c :: a :: t) := by
          rcases hacc with hsp | hwd
          · left
            have hc : c = ' ' := by
              have ha' := hsp a (List.mem_cons_self a t)
              simp [ha'] at hty
              simpa using hty
            intro x hx
            rcases List.mem_cons.mp hx with rfl | hx
            · exact hc
            · exact hsp x hx
          · right
            have ha' : pyIsSpace a = false := hwd a (List.mem_cons_self a t)
            have hane : ¬(a = ' ') := by
              intro hc
              rw [hc] at ha'
              cases ha'
            have hcne : ¬(c = ' ') := by
              simp [hane] at hty
              simpa using hty
            intro x hx
            rcases List.mem_cons.mp hx with rfl | hx
            · cases hpc : pyIsSpace x
              · rfl
              · exact absurd (hw x (List.mem_cons_self x cs) hpc) hcne
            · exact hwd x hx
        exact ih (c :: a :: t) hwtail (Or.inr hext) r hr
      · rw [if_neg hty] at hr
        rcases List.mem_cons.mp hr with rfl | hr
        · refine ⟨by simp, ?_⟩
          rcases hacc with h | h
          · exact Or.inl (fun x hx => h x (List.mem_reverse.mp hx))
          · exact Or.inr (fun x hx => h x (List.mem_reverse.mp hx))
        · exact ih [c] hwtail (Or.inr hc1) r hr

theorem runsAux_head (cs : List Char) :
    ∀ acc : List Char, acc ≠ [] →
      (∀ c ∈ cs, pyIsSpace c = true → c = ' ') →
      ∃ f rest, runsAux cs acc = f :: rest ∧
        (SpaceChunk acc → isBlank f = true) ∧
        (WordChunk acc → isBlank f = false) := by
  induction cs with
  | nil =>
    intro acc hne _
    rw [runsAux, if_neg hne]
    refine ⟨acc.reverse, [], rfl, ?_, ?_⟩
    · intro h
      exact isBlank_of_space _ (fun a hx => h a (List.mem_reverse.mp hx))
    · intro h
      exact isBlank_of_word _ (fun a hx => h a (List.mem_reverse.mp hx)) (by simpa using hne)
  | cons c cs ih =>
    intro acc hne hw
    have hwtail : ∀ x ∈ cs, pyIsSpace x = true → x = ' ' :=
      fun x hx => hw x (List.mem_cons_of_mem c hx)
    rcases acc with _ | ⟨a, t⟩
    · exact absurd rfl hne
    rw [runsAux]
    by_cases hty : ((a = ' ') : Bool) = ((c = ' ') : Bool)
    · rw [if_pos hty]
      obtain ⟨f, rest, heq, hsp, hwd⟩ := ih (c :: a :: t) (List.cons_ne_nil _ _) hwtail
      refine ⟨f, rest, heq, ?_, ?_⟩
      · intro h
        apply hsp
        have hc : c = ' ' := by
          have ha' := h a (List.mem_cons_self a t)
          simp [ha'] at hty
          simpa using hty
        intro x hx
        rcases List.mem_cons.mp hx with rfl | hx
        · exact hc
        · exact h x hx
      · intro h
        apply hwd
        have ha' : pyIsSpace a = false := h a (List.mem_cons_self a t)
        have hane : ¬(a = ' ') := by
          intro hc
          rw [hc] at ha'
          cases ha'
        have hcne : ¬(c = ' ') := by
          simp [hane] at hty
          simpa using hty
        intro x hx
        rcases List.mem_cons.mp hx with rfl | hx
        · cases hpc : pyIsSpace x
          · rfl
          · exact absurd (hw x (List.mem_cons_self x cs) hpc) hcne
        · exact h x hx
    · rw [if_neg hty]
      refine ⟨(a :: t).reverse, runsAux cs [c], rfl, ?_, ?_⟩
      · intro h
        exact isBlank_of_space _ (fun x hx => h x (List.mem_reverse.mp hx))
      · intro h
        exact isBlank_of_word _ (fun x hx => h x (List.mem_reverse.mp hx)) (by simp)

theorem runsAux_chain (cs : List Char) :
    ∀ acc : List Char,
      (∀ c ∈ cs, pyIsSpace c = true → c = ' ') →
      (acc = [] ∨ SpaceChunk acc ∨ WordChunk acc) →
      List.Chain' blankRel (runsAux cs acc) := by
  induction cs with
  | nil =>
    intro acc _ _
    rw [runsAux]
    by_cases ha : acc = []
    · rw [if_pos ha]
      exact List.chain'_nil
    · rw [if_neg ha]
      exact List.chain'_singleton _
  | cons c cs ih =>
    intro acc hw hacc
    have hwtail : ∀ x ∈ cs, pyIsSpace x = true → x = ' ' :=
      fun x hx => hw x (List.mem_cons_of_mem c hx)
    have hc1 : SpaceChunk [c] ∨ WordChunk [c] := by
      by_cases hc : c = ' '
      · left
        intro a ha
        rw [List.mem_singleton.mp ha, hc]
      · right
        intro a ha
        rw [List.mem_singleton.mp ha]
        cases hpc : pyIsSpace c
        · rfl
        · exact absurd (hw c (List.mem_cons_self c cs) hpc) hc
    rcases acc with _ | ⟨a, t⟩
    · rw [runsAux]
      exact ih [c] hwtail (Or.inr hc1)
    · rw [runsAux]
      rcases hacc with h | hacc
      · cases h
      by_cases hty : ((a = ' ') : Bool) = ((c = ' ') : Bool)
      · rw [if_pos hty]
        have hext : SpaceChunk (c :: a :: t) ∨ WordChunk (c :: a :: t) := by
          rcases hacc with hsp | hwd
          · left
            have hc : c = ' ' := by
              have ha' := hsp a (List.mem_cons_self a t)
              simp [ha'] at hty
              simpa using hty
            intro x hx
            rcases List.mem_cons.mp hx with rfl | hx
            · exact hc
            · exact hsp x hx
          · right
            have ha' : pyIsSpace a = false := hwd a (List.mem_cons_self a t)
            have hane : ¬(a = ' ') := by
              intro hc
              rw [hc] at ha'
              cases ha'
            have hcne : ¬(c = ' ') := by
              simp [hane] at hty
              simpa using hty
            intro x hx
            rcases List.mem_cons.mp hx with rfl | hx
            · cases hpc : pyIsSpace x
              · rfl
              · exact absurd (hw x (List.mem_cons_self x cs) hpc) hcne
            · exact hwd x hx
        exact ih (c :: a :: t) hwtail (Or.inr hext)
      · rw [if_neg hty]
        refine List.chain'_cons'.mpr ⟨?_, ih [c] hwtail (Or.inr hc1)⟩
        intro y hy
        rcases hacc with hsp | hwd
        · exact Or.inl (isBlank_of_space _ (fun x hx => hsp x (List.mem_reverse.mp hx)))
        · -- the word run ends; the next run starts with a space
          have ha' : pyIsSpace a = false := hwd a (List.mem_cons_self a t)
          have hane : ¬(a = ' ') := by
            intro hc
            rw [hc] at ha'
            cases ha'
          have hc : c = ' ' := by
            simp [hane] at hty
            simpa using hty
          have hsp1 : SpaceChunk [c] := by
            intro x hx
            rw [List.mem_singleton.mp hx, hc]
          obtain ⟨f, rest, heq, hspf, _⟩ :=
            runsAux_head cs [c] (List.cons_ne_nil _ _) hwtail
          rw [heq] at hy
          simp at hy
          rw [← hy]
          exact Or.inr (hspf hsp1)

theorem runsAux_filter (cs : List Char) :
    ∀ acc : List Char,
      (∀ c ∈ cs, pyIsSpace c = true → c = ' ') →
      (WordChunk acc → (runsAux cs acc).filter notBlank = splitWsAux cs acc) ∧
      (SpaceChunk acc → (runsAux cs acc).filter notBlank = splitWsAux cs []) := by
  induction cs with
  | nil =>
    intro acc _
    constructor
    · intro hwd
      by_cases ha : acc = []
      · subst ha
        rfl
      · rw [runsAux, splitWsAux, if_neg ha, List.filter_cons]
        have : isBlank acc.reverse = false :=
          isBlank_of_word _ (fun x hx => hwd x (List.mem_reverse.mp hx)) (by simpa using ha)
        simp [notBlank, this]
    · intro hsp
      by_cases ha : acc = []
      · subst ha
        rfl
      · have hrhs : splitWsAux ([] : List Char) ([] : List Char) = [] := rfl
        rw [runsAux, if_neg ha, hrhs, List.filter_cons]
        have : isBlank acc.reverse = true :=
          isBlank_of_space _ (fun x hx => hsp x (List.mem_reverse.mp hx))
        simp [notBlank, this]
  | cons c cs ih =>
    intro acc hw
    have hwtail : ∀ x ∈ cs, pyIsSpace x = true → x = ' ' :=
      fun x hx => hw x (List.mem_cons_of_mem c hx)
    have hcfacts : (c = ' ' → pyIsSpace c = true) ∧ (¬(c = ' ') → pyIsSpace c = false) := by
      constructor
      · intro hc
        rw [hc]
        rfl
      · intro hc
        cases hpc : pyIsSpace c
        · rfl
        · exact absurd (hw c (List.mem_cons_self c cs) hpc) hc
    constructor
    · -- the accumulator is (part of) a word
      intro hwd
      rcases acc with _ | ⟨a, t⟩
      · rw [runsAux, splitWsAux]
        by_cases hc : c = ' '
        · have hsp1 : SpaceChunk [c] := by
            intro x hx
            rw [List.mem_singleton.mp hx, hc]
          rw [(ih [c] hwtail).2 hsp1]
          simp [hcfacts.1 hc]
        · have hwd1 : WordChunk [c] := by
            intro x hx
            rw [List.mem_singleton.mp hx]
            exact hcfacts.2 hc
          rw [(ih [c] hwtail).1 hwd1]
          simp [hcfacts.2 hc]
      · have ha' : pyIsSpace a = false := hwd a (List.mem_cons_self a t)
        have hane : ¬(a = ' ') := by
          intro hc
          rw [hc] at ha'
          cases ha'
        rw [runsAux, splitWsAux]
        by_cases hc : c = ' '
        · -- the word ends here
          have hty : ¬(((a = ' ') : Bool) = ((c = ' ') : Bool)) := by
            simp [hane, hc]
          rw [if_neg hty, List.filter_cons]
          have hkeep : isBlank (a :: t).reverse = false :=
            isBlank_of_word _ (fun x hx => hwd x (List.mem_reverse.mp hx)) (by simp)
          rw [List.reverse_cons] at hkeep
          have hsp1 : SpaceChunk [c] := by
            intro x hx
            rw [List.mem_singleton.mp hx, hc]
          rw [(ih [c] hwtail).2 hsp1]
          simp [notBlank, hkeep, hcfacts.1 hc]
        · -- the word continues
          have hty : (((a = ' ') : Bool) = ((c = ' ') : Bool)) := by
            simp [hane, hc]
          rw [if_pos hty]
          have hwd' : WordChunk (c :: a :: t) := by
            intro x hx
            rcases List.mem_cons.mp hx with rfl | hx
            · exact hcfacts.2 hc
            · exact hwd x hx
          rw [(ih (c :: a :: t) hwtail).1 hwd']
          simp [hcfacts.2 hc]
    · -- the accumulator is (part of) a space run
      intro hsp
      rcases acc with _ | ⟨a, t⟩
      · rw [runsAux, splitWsAux]
        by_cases hc : c = ' '
        · have hsp1 : SpaceChunk [c] := by
            intro x hx
            rw [List.mem_singleton.mp hx, hc]
          rw [(ih [c] hwtail).2 hsp1]
          simp [hcfacts.1 hc]
        · have hwd1 : WordChunk [c] := by
            intro x hx
            rw [List.mem_singleton.mp hx]
            exact hcfacts.2 hc
          rw [(ih [c] hwtail).1 hwd1]
          simp [hcfacts.2 hc]
      · have ha : a = ' ' := hsp a (List.mem_cons_self a t)
        rw [runsAux, splitWsAux]
        by_cases hc : c = ' '
        · have hty : (((a = ' ') : Bool) = ((c = ' ') : Bool)) := by
            simp [ha, hc]
          rw [if_pos hty]
          have hsp' : SpaceChunk (c :: a :: t) := by
            intro x hx
            rcases List.mem_cons.mp hx with rfl | hx
            · exact hc
            · exact hsp x hx
          rw [(ih (c :: a :: t) hwtail).2 hsp']
          simp [hcfacts.1 hc]
        · have hty : ¬(((a = ' ') : Bool) = ((c = ' ') : Bool)) := by
            simp [ha, hc]
          rw [if_neg hty, List.filter_cons]
          have hdropped : isBlank (a :: t).reverse = true :=
            isBlank_of_space _ (fun x hx => hsp x (List.mem_reverse.mp hx))
          rw [List.reverse_cons] at hdropped
          have hwd1 : WordChunk [c] := by
            intro x hx
            rw [List.mem_singleton.mp hx]
            exact hcfacts.2 hc
          rw [(ih [c] hwtail).1 hwd1]
          simp [notBlank, hdropped, hcfacts.2 hc]

theorem splitRuns_good (cs : List Char) (hw : ∀ c ∈ cs, pyIsSpace c = true → c = ' ') :
    ∀ r ∈ splitRuns cs, GoodChunk r :=
  runsAux_good cs [] hw (Or.inl rfl)

theorem splitRuns_chain (cs : List Char) (hw : ∀ c ∈ cs, pyIsSpace c = true → c = ' ') :
    List.Chain' blankRel (splitRuns cs) :=
  runsAux_chain cs [] hw (Or.inl rfl)

theorem splitRuns_filter (cs : List Char) (hw : ∀ c ∈ cs, pyIsSpace c = true → c = ' ') :
    (splitRuns cs).filter notBlank = pySplitL cs :=
  (runsAux_filter cs [] hw).1 (fun a ha => absurd ha (List.not_mem_nil a))

/-! ## Munging does not change the words -/

theorem splitWsAux_replace (cs : List Char) :
    ∀ acc : List Char,
      splitWsAux (cs.map (fun c => if pyIsSpace c then ' ' else c)) acc =
        splitWsAux cs acc := by
  induction cs with
  | nil => intro acc; rfl
  | cons c cs ih =>
    intro acc
    rw [List.map_cons]
    by_cases hc : pyIsSpace c
    · have hfc : (if pyIsSpace c then ' ' else c) = ' ' := if_pos hc
      rw [hfc, splitWsAux, splitWsAux]
      have hsp : pyIsSpace ' ' = true := rfl
      simp only [hsp, hc, if_true]
      by_cases ha : acc = [] <;> simp [ha, ih]
    · have hfc : (if pyIsSpace c then ' ' else c) = c := if_neg hc
      rw [hfc, splitWsAux, splitWsAux]
      simp [hc, ih]

theorem splitWsAux_replicate_space (x : List Char) :
    ∀ k : Nat, splitWsAux (List.replicate k ' ' ++ x) [] = splitWsAux x [] := by
  intro k
  induction k with
  | zero => rfl
  | succ k ih =>
    rw [List.replicate_succ, List.cons_append, splitWsAux]
    simp only [show pyIsSpace ' ' = true from rfl, if_true, if_pos rfl]
    exact ih

theorem splitWsAux_expandTabs (cs : List Char) :
    ∀ (col : Nat) (acc : List Char),
      splitWsAux (expandTabs cs col) acc = splitWsAux cs acc := by
  induction cs with
  | nil => intro col acc; rfl
  | cons c cs ih =>
    intro col acc
    by_cases hc : c = '\t'
    · subst hc
      rw [expandTabs]
      simp only [if_pos rfl]
      have hpad : ∃ p, 8 - col % 8 = p + 1 := ⟨8 - col % 8 - 1, by omega⟩
      obtain ⟨p, hp⟩ := hpad
      rw [hp, List.replicate_succ, List.cons_append]
      have hsp : pyIsSpace ' ' = true := rfl
      have htb : pyIsSpace '\t' = true := rfl
      simp only [splitWsAux, hsp, htb, if_true]
      by_cases ha : acc = [] <;>
        simp [ha, splitWsAux_replicate_space, ih]
    · rw [expandTabs]
      rw [if_neg hc]
      by_cases hnl : (c = '\n' || c = '\r') = true
      · rw [if_pos hnl]
        simp only [splitWsAux]
        by_cases hws : pyIsSpace c
        · simp only [hws, if_true]
          by_cases ha : acc = [] <;> simp [ha, ih]
        · simp [hws, ih]
      · rw [if_neg hnl]
        simp only [splitWsAux]
        by_cases hws : pyIsSpace c
        · simp only [hws, if_true]
          by_cases ha : acc = [] <;> simp [ha, ih]
        · simp [hws, ih]

theorem pySplitL_munge (cs : List Char) : pySplitL (munge cs) = pySplitL cs := by
  rw [munge, pySplitL, pySplitL, splitWsAux_replace, splitWsAux_expandTabs]

theorem munge_ws_space (cs : List Char) :
    ∀ c ∈ munge cs, pyIsSpace c = true → c = ' ' := by
  intro c hc hws
  rw [munge] at hc
  rcases List.mem_map.mp hc with ⟨d, _, hd⟩
  by_cases hdw : pyIsSpace d
  · rw [← hd, if_pos hdw]
  · rw [← hd, if_neg hdw]
    rw [← hd, if_neg hdw] at hws
    exact absurd hws (by simp [hdw])

/-! ## Splitting the joined lines -/

theorem pySplitL_joinLines (lines : List (List Char)) :
    pySplitL (joinLines lines) = (lines.map pySplitL).flatten := by
  induction lines with
  | nil => rfl
  | cons l rest ih =>
    cases rest with
    | nil => simp [joinLines, pySplitL]
    | cons l2 rest2 =>
      have hj : joinLines (l :: l2 :: rest2) = l ++ '\n' :: joinLines (l2 :: rest2) := rfl
      rw [hj, pySplitL_sep '\n' rfl, ih]
      simp

/-! ## Line lengths never exceed the width -/

theorem oneLine_chunksLen (w : Nat) (chunks : List (List Char)) (hv : Bool) :
    chunksLen (oneLine w chunks hv).1 ≤ w := by
  obtain ⟨hlen, hle, hstop⟩ := takeFit_spec w (dropLeadBlank hv chunks) 0
  obtain ⟨cur0, curLen, rest0, ht⟩ :
      ∃ a b c, takeFit w (dropLeadBlank hv chunks) 0 = (a, b, c) := ⟨_, _, _, rfl⟩
  rw [ht] at hlen hle
  simp only at hlen hle
  have hclw : chunksLen cur0 ≤ w := by
    rcases hle with h | h
    · rw [h, chunksLen_nil]
      exact Nat.zero_le w
    · omega
  have hone : oneLine w chunks hv =
      (dropTrailBlank (handleLong w curLen cur0 rest0).1,
       (handleLong w curLen cur0 rest0).2) := by
    rw [oneLine, ht]
  rw [hone]
  simp only
  rcases rest0 with _ | ⟨r, rs⟩
  · rw [handleLong_nil]
    exact Nat.le_trans (dropTrailBlank_chunksLen cur0) hclw
  · by_cases hlong : w < r.length
    · rw [handleLong_cons_long w curLen cur0 r rs hlong]
      simp only
      refine Nat.le_trans (dropTrailBlank_chunksLen _) ?_
      rw [chunksLen_append, chunksLen_cons, chunksLen_nil]
      have : (r.take (w - curLen)).length ≤ w - curLen := by
        rw [List.length_take]
        omega
      omega
    · rw [handleLong_cons_short w curLen cur0 r rs hlong]
      exact Nat.le_trans (dropTrailBlank_chunksLen cur0) hclw

theorem wrapLoop_line_len (w : Nat) :
    ∀ (fuel : Nat) (chunks : List (List Char)) (hv : Bool) (l : List Char),
      l ∈ wrapLoop w fuel chunks hv → l.length ≤ w := by
  intro fuel
  induction fuel with
  | zero =>
    intro chunks hv l hl
    cases hl
  | succ f ih =>
    intro chunks hv l hl
    cases chunks with
    | nil => cases hl
    | cons c cs =>
      rcases hp : (oneLine w (c :: cs) hv).1 with _ | ⟨l0, ls⟩
      · rw [wrapLoop, hp] at hl
        exact ih _ _ _ hl
      · rw [wrapLoop, hp] at hl
        rcases List.mem_cons.mp hl with rfl | hl
        · rw [chunksLen_flatten, ← hp]
          exact oneLine_chunksLen w (c :: cs) hv
        · exact ih _ _ _ hl

/-- Every line produced by `textwrap.wrap` has at most `width`
characters. -/
theorem textwrap_wrap_line_len (w : Nat) (s : String) :
    ∀ t ∈ textwrap_wrap w s, t.length ≤ w := by
  intro t ht
  rw [textwrap_wrap] at ht
  rcases List.mem_map.mp ht with ⟨l, hl, rfl⟩
  exact wrapLoop_line_len w _ _ _ l hl

/-- `textwrap.fill` never splits a word that fits on a line: the
whitespace-separated words of the output are exactly those of the
input. -/
theorem fill_words (w : Nat) (hw1 : 1 ≤ w) (s : String)
    (hfitw : ∀ word ∈ pySplit s, word.length ≤ w) :
    pySplit (textwrap_fill w s) = pySplit s := by
  have hmw := munge_ws_space s.data
  have hgood := splitRuns_good (munge s.data) hmw
  have hchain := splitRuns_chain (munge s.data) hmw
  have hfilter := splitRuns_filter (munge s.data) hmw
  have hwordsfit : WordsFit w (splitRuns (munge s.data)) := by
    intro c hc hb
    have hcmem : c ∈ (splitRuns (munge s.data)).filter notBlank :=
      List.mem_filter.mpr ⟨hc, by simp [notBlank, hb]⟩
    rw [hfilter, pySplitL_munge] at hcmem
    have hmem : String.mk c ∈ pySplit s := List.mem_map.mpr ⟨c, hcmem, rfl⟩
    exact hfitw _ hmem
  have hdata : (textwrap_fill w s).data =
      joinLines (wrapLoop w
        (chunksLen (splitRuns (munge s.data)) + (splitRuns (munge s.data)).length + 1)
        (splitRuns (munge s.data)) false) := rfl
  have hfuel : mWrap (splitRuns (munge s.data)) + 1 ≤
      chunksLen (splitRuns (munge s.data)) + (splitRuns (munge s.data)).length + 1 := by
    rw [mWrap]
  rw [pySplit, hdata, pySplitL_joinLines,
      wrapLoop_words w hw1 _ _ false hfuel hgood hchain hwordsfit,
      hfilter, pySplitL_munge]
  rfl

/-- **C9, amended.** For every sequence of subtitle chunks **whose text
contains no hyphen character `'-'`**, the caption-track file consists of
one block per chunk of the exact form
`index\nHH:MM:SS,mmm --> HH:MM:SS,mmm\nwrapped text\n\n` with 1-based
indices, zero-padded timestamps whose minutes and seconds are below 60
and milliseconds below 1000, and blocks separated by a blank line.  The
chunk text is line-wrapped on whitespace to at most `MAX_LINE_CHARS`
characters per line; words no longer than the line width are never
split (the output's words are exactly the chunk's words), but a word
longer than the line width *is* split at the width boundary
(`break_long_words=True`).  Chunks containing a hyphen are excluded
from this statement: with `textwrap`'s default `break_on_hyphens=True`
a hyphen inside a word is an additional break point, so the never-split
guarantee does not extend to hyphenated words (see the counterexample's
comment), and this embedding does not model the hyphen behaviour. -/
theorem srt_format_amended (chunks : List String) (total : Nat)
    (_hnh : ∀ c ∈ chunks, ∀ a ∈ c.data, a ≠ '-') :
    (srtContent chunks total =
      srtJoin ((List.range chunks.length).map
        (fun k => srtBlock total (total / chunks.length) chunks.length (1 + k)
          (chunks.getD k "")))) ∧
    (∀ (i : Nat) (c : String),
      srtBlock total (total / chunks.length) chunks.length i c =
        toString i ++ "\n" ++ hms_ms ((i - 1) * (total / chunks.length)) ++ " --> " ++
          hms_ms (if i = chunks.length then total else i * (total / chunks.length)) ++
          "\n" ++ textwrap_fill MAX_LINE_CHARS c ++ "\n\n") ∧
    (∀ ms : Nat, ∃ h m s r, m < 60 ∧ s < 60 ∧ r < 1000 ∧
      hms_ms ms =
        padZero 2 h ++ ":" ++ padZero 2 m ++ ":" ++ padZero 2 s ++ "," ++ padZero 3 r) ∧
    (∀ c ∈ chunks, ∀ t ∈ textwrap_wrap MAX_LINE_CHARS c, t.length ≤ MAX_LINE_CHARS) ∧
    (∀ c ∈ chunks, (∀ word ∈ pySplit c, word.length ≤ MAX_LINE_CHARS) →
      pySplit (textwrap_fill MAX_LINE_CHARS c) = pySplit c) := by
  refine ⟨?_, fun i c => rfl, hms_ms_shape, ?_, ?_⟩
  · rw [srtContent]
    exact srtLoop_closed chunks total (total / chunks.length) chunks.length 1
  · intro c _ t ht
    exact textwrap_wrap_line_len MAX_LINE_CHARS c t ht
  · intro c _ hfit
    exact fill_words MAX_LINE_CHARS (by decide) c hfit

/-- Witness for `srt_format_amended`: a two-chunk Hindi caption file. -/
theorem srt_format_amended_witness :
    (∀ c ∈ ["नमस्ते दुनिया", "यह एक परीक्षण है"], ∀ a ∈ c.data, a ≠ '-') ∧
    ((srtContent ["नमस्ते दुनिया", "यह एक परीक्षण है"] 2000 =
      srtJoin ((List.range (["नमस्ते दुनिया", "यह एक परीक्षण है"] : List String).length).map
        (fun k => srtBlock 2000
          (2000 / (["नमस्ते दुनिया", "यह एक परीक्षण है"] : List String).length)
          (["नमस्ते दुनिया", "यह एक परीक्षण है"] : List String).length (1 + k)
          ((["नमस्ते दुनिया", "यह एक परीक्षण है"] : List String).getD k "")))) ∧
    (∀ (i : Nat) (c : String),
      srtBlock 2000 (2000 / (["नमस्ते दुनिया", "यह एक परीक्षण है"] : List String).length)
          (["नमस्ते दुनिया", "यह एक परीक्षण है"] : List String).length i c =
        toString i ++ "\n" ++
          hms_ms ((i - 1) *
            (2000 / (["नमस्ते दुनिया", "यह एक परीक्षण है"] : List String).length)) ++
          " --> " ++
          hms_ms (if i = (["नमस्ते दुनिया", "यह एक परीक्षण है"] : List String).length then 2000
            else i * (2000 / (["नमस्ते दुनिया", "यह एक परीक्षण है"] : List String).length)) ++
          "\n" ++ textwrap_fill MAX_LINE_CHARS c ++ "\n\n") ∧
    (∀ ms : Nat, ∃ h m s r, m < 60 ∧ s < 60 ∧ r < 1000 ∧
      hms_ms ms =
        padZero 2 h ++ ":" ++ padZero 2 m ++ ":" ++ padZero 2 s ++ "," ++ padZero 3 r) ∧
    (∀ c ∈ ["नमस्ते दुनिया", "यह एक परीक्षण है"],
      ∀ t ∈ textwrap_wrap MAX_LINE_CHARS c, t.length ≤ MAX_LINE_CHARS) ∧
    (∀ c ∈ ["नमस्ते दुनिया", "यह एक परीक्षण है"],
      (∀ word ∈ pySplit c, word.length ≤ MAX_LINE_CHARS) →
        pySplit (textwrap_fill MAX_LINE_CHARS c) = pySplit c)) :=
  ⟨by decide, srt_format_amended ["नमस्ते दुनिया", "यह एक परीक्षण है"] 2000 (by decide)⟩

end HindiVideo
